import Mathlib

/-!
Verification of the JSONPath lexer of the jsonb repository
(src/src/jsonpath/parser/token.rs).

The lexer is produced by the logos derive macro from the `#[regex]` and
`#[token]` attributes on the `TokenKind` enum.  We embed it shallowly:

* the input is a list of bytes (`List Nat`, each entry a byte value);
* every `#[regex]`/`#[token]` attribute is transcribed into a small regular
  expression AST `RE` over byte classes, in declaration order;
* the generated lexer's behaviour (maximal munch over all patterns, ties
  broken by pattern priority, `logos::skip` for whitespace, an error when no
  pattern matches at a position) is modelled by `bestMatch`;
* `Tokenizer::next` (token.rs, `impl Iterator for Tokenizer`) is modelled by
  `nextTok`, including the one-shot synthetic EOI token and the
  `SyntaxException` error whose span runs from the failed offset to the end
  of the input.

Matching of a single pattern uses Brzozowski derivatives; `RE.maxM` computes
the length of the longest non-empty match of a pattern at the start of the
input, which is exactly what the logos DFA computes per pattern (none of the
source patterns matches the empty string).
-/

namespace JsonbToken

/-- A byte class given as a list of closed intervals of byte values
(the form in which logos compiles character classes). -/
def inRanges (rs : List (Nat × Nat)) (b : Nat) : Bool :=
  rs.any (fun p => decide (p.1 ≤ b) && decide (b ≤ p.2))

/-- Regular expressions over bytes, the shape into which the `#[regex]` and
`#[token]` attributes of `TokenKind` are transcribed. -/
inductive RE where
  | emp : RE
  | eps : RE
  | cls : List (Nat × Nat) → RE
  | seq : RE → RE → RE
  | alt : RE → RE → RE
  | star : RE → RE
deriving Repr, DecidableEq

/-- Does the pattern match the empty string? -/
def RE.nullable : RE → Bool
  | .emp => false
  | .eps => true
  | .cls _ => false
  | .seq a b => a.nullable && b.nullable
  | .alt a b => a.nullable || b.nullable
  | .star _ => true

/-- Brzozowski derivative of a pattern by one byte. -/
def RE.deriv : RE → Nat → RE
  | .emp, _ => .emp
  | .eps, _ => .emp
  | .cls rs, b => if inRanges rs b then .eps else .emp
  | .seq a c, b =>
    if a.nullable then .alt (.seq (a.deriv b) c) (c.deriv b)
    else .seq (a.deriv b) c
  | .alt a c, b => .alt (a.deriv b) (c.deriv b)
  | .star r, b => .seq (r.deriv b) (.star r)

/-- A pattern that matches no string at all (conservative syntactic check). -/
def RE.dead : RE → Bool
  | .emp => true
  | .eps => false
  | .cls rs => rs.all (fun p => decide (p.2 < p.1))
  | .seq a b => a.dead || b.dead
  | .alt a b => a.dead && b.dead
  | .star _ => false

/-- Length of the longest non-empty match of the pattern at the start of
`s` (logos patterns are never nullable, so the generated DFA only ever
produces matches of length at least one). -/
def RE.maxM : RE → List Nat → Option Nat
  | _, [] => none
  | r, b :: s =>
    match (r.deriv b).maxM s with
    | some n => some (n + 1)
    | none => if (r.deriv b).nullable then some 1 else none

/-- Declarative matching semantics of `RE`. -/
inductive Matches : RE → List Nat → Prop where
  | eps : Matches .eps []
  | cls {rs : List (Nat × Nat)} {b : Nat} :
      inRanges rs b = true → Matches (.cls rs) [b]
  | seqm {r1 r2 : RE} {t1 t2 : List Nat} :
      Matches r1 t1 → Matches r2 t2 → Matches (.seq r1 r2) (t1 ++ t2)
  | altL {r1 r2 : RE} {t : List Nat} :
      Matches r1 t → Matches (.alt r1 r2) t
  | altR {r1 r2 : RE} {t : List Nat} :
      Matches r2 t → Matches (.alt r1 r2) t
  | starNil {r : RE} : Matches (.star r) []
  | starCons {r : RE} {t1 t2 : List Nat} :
      Matches r t1 → Matches (.star r) t2 → Matches (.star r) (t1 ++ t2)

/-- `startKill r bs = true` when the pattern `r` cannot match any non-empty
string whose first byte lies in `bs`. -/
def startKill (r : RE) (bs : List Nat) : Bool :=
  bs.all (fun b => (r.deriv b).dead)

/-- One-or-more repetition of a byte class, the shallow form of `[..]+`. -/
def plusCls (rs : List (Nat × Nat)) : RE :=
  .seq (.cls rs) (.star (.cls rs))

/-- Zero-or-one repetition, the shallow form of `..?`. -/
def optRE (r : RE) : RE := .alt r .eps

/-- A literal byte string, the shallow form of a `#[token("..")]` pattern. -/
def litRE : List Nat → RE
  | [] => .eps
  | b :: w => .seq (.cls [(b, b)]) (litRE w)

/-- `caseVariantB t w` holds when `t` equals the (upper-case ASCII) word `w`
with each letter independently in upper or lower case. -/
def caseVariantB : List Nat → List Nat → Bool
  | [], [] => true
  | b :: t, c :: w => (b == c || b == c + 32) && caseVariantB t w
  | _, _ => false

/-- A case-insensitive literal keyword, the shallow form of a
`#[token("..", ignore(ascii_case))]` pattern; `w` is the upper-case ASCII
spelling, and each byte may match in either case (for a letter `c`,
`c + 32` is its lower-case form). -/
def litCIRE : List Nat → RE
  | [] => .eps
  | c :: w => .seq (.cls [(c, c), (c + 32, c + 32)]) (litCIRE w)

/-- The `TokenKind` enum of token.rs, variants in declaration order
(the commented-out `Comment`, `CommentBlock`, `PGLiteralHex` and
`MySQLLiteralHex` variants of the source are omitted, as in the source). -/
inductive TokenKind where
  | Error
  | EOI
  | Whitespace
  | Ident
  | QuotedString
  | LiteralInteger
  | LiteralFloat
  | Dollar
  | DoubleEq
  | Eq
  | NotEq
  | Lt
  | Gt
  | Lte
  | Gte
  | Spaceship
  | Plus
  | Minus
  | Multiply
  | Divide
  | Modulo
  | StringConcat
  | LParen
  | RParen
  | Comma
  | Period
  | DoublePeriod
  | Colon
  | DoubleColon
  | SemiColon
  | Backslash
  | LBracket
  | RBracket
  | Caret
  | LBrace
  | RBrace
  | AtSign
  | Placeholder
  | AND
  | OR
  | TRUE
  | FALSE
  | NULL
  | NOT
  | IN
  | NIN
  | SUBSETOF
  | CONTAINS
  | SIZE
  | EMPTY
deriving Repr, DecidableEq

/-- `#[regex(r"[ \t\r\n\f]+", logos::skip)]` on `Whitespace`:
space, tab, CR, LF, form feed (bytes 32, 9, 13, 10, 12). -/
def wsRE : RE := plusCls [(9, 10), (12, 13), (32, 32)]

/-- `#[regex(r"[_a-zA-Z][_$a-zA-Z0-9]*")]` on `Ident`. -/
def identRE : RE :=
  .seq (.cls [(65, 90), (95, 95), (97, 122)])
    (.star (.cls [(36, 36), (48, 57), (65, 90), (95, 95), (97, 122)]))

/-- Backtick-quoted form of `QuotedString`:
the first regex on the variant, a backtick (96), any bytes other than a
backtick, a closing backtick. -/
def btRE : RE :=
  .seq (.cls [(96, 96)])
    (.seq (.star (.cls [(0, 95), (97, 255)])) (.cls [(96, 96)]))

/-- Body alternative of the double-quoted regex on `QuotedString`:
a byte that is neither quote (34) nor backslash (92), or a backslash
followed by any byte except LF (the regex dot), or a doubled quote. -/
def dqUnit : RE :=
  .alt (.cls [(0, 33), (35, 91), (93, 255)])
    (.alt (.seq (.cls [(92, 92)]) (.cls [(0, 9), (11, 255)]))
      (.seq (.cls [(34, 34)]) (.cls [(34, 34)])))

/-- Second regex on `QuotedString`: a double-quoted string. -/
def dqRE : RE :=
  .seq (.cls [(34, 34)]) (.seq (.star dqUnit) (.cls [(34, 34)]))

/-- Body alternative of the single-quoted regex on `QuotedString`
(single quote is byte 39). -/
def sqUnit : RE :=
  .alt (.cls [(0, 38), (40, 91), (93, 255)])
    (.alt (.seq (.cls [(92, 92)]) (.cls [(0, 9), (11, 255)]))
      (.seq (.cls [(39, 39)]) (.cls [(39, 39)])))

/-- Third regex on `QuotedString`: a single-quoted string. -/
def sqRE : RE :=
  .seq (.cls [(39, 39)]) (.seq (.star sqUnit) (.cls [(39, 39)]))

/-- `#[regex(r"-?[0-9]+")]` on `LiteralInteger` (minus is byte 45). -/
def intRE : RE := .seq (optRE (.cls [(45, 45)])) (plusCls [(48, 57)])

/-- An exponent part `[eE][+-]?[0-9]+` (E 69, e 101, plus 43, minus 45). -/
def expRE : RE :=
  .seq (.cls [(69, 69), (101, 101)])
    (.seq (optRE (.cls [(43, 43), (45, 45)])) (plusCls [(48, 57)]))

/-- First regex on `LiteralFloat`: `[0-9]+[eE][+-]?[0-9]+`. -/
def floatARE : RE := .seq (plusCls [(48, 57)]) expRE

/-- Second regex on `LiteralFloat`:
`([0-9]*\.[0-9]+([eE][+-]?[0-9]+)?)|([0-9]+\.[0-9]*([eE][+-]?[0-9]+)?)`
(dot is byte 46). -/
def floatBRE : RE :=
  .alt
    (.seq (.star (.cls [(48, 57)]))
      (.seq (.cls [(46, 46)]) (.seq (plusCls [(48, 57)]) (optRE expRE))))
    (.seq (plusCls [(48, 57)])
      (.seq (.cls [(46, 46)]) (.seq (.star (.cls [(48, 57)])) (optRE expRE))))

/-- The `#[token("..")]` punctuation patterns of `TokenKind`, as byte strings
with their kinds, in declaration order.  `NotEq` carries two patterns
(`<>` and `!=`), exactly as in the source. -/
def punctTable : List (List Nat × TokenKind) :=
  [([36], .Dollar),
   ([61, 61], .DoubleEq),
   ([61], .Eq),
   ([60, 62], .NotEq),
   ([33, 61], .NotEq),
   ([60], .Lt),
   ([62], .Gt),
   ([60, 61], .Lte),
   ([62, 61], .Gte),
   ([60, 61, 62], .Spaceship),
   ([43], .Plus),
   ([45], .Minus),
   ([42], .Multiply),
   ([47], .Divide),
   ([37], .Modulo),
   ([124, 124], .StringConcat),
   ([40], .LParen),
   ([41], .RParen),
   ([44], .Comma),
   ([46], .Period),
   ([46, 46], .DoublePeriod),
   ([58], .Colon),
   ([58, 58], .DoubleColon),
   ([59], .SemiColon),
   ([92], .Backslash),
   ([91], .LBracket),
   ([93], .RBracket),
   ([94], .Caret),
   ([123], .LBrace),
   ([125], .RBrace),
   ([64], .AtSign),
   ([63], .Placeholder)]

/-- The twelve `#[token("..", ignore(ascii_case))]` keyword patterns, as
upper-case ASCII byte strings with their kinds, in declaration order. -/
def keywordTable : List (List Nat × TokenKind) :=
  [([65, 78, 68], .AND),
   ([79, 82], .OR),
   ([84, 82, 85, 69], .TRUE),
   ([70, 65, 76, 83, 69], .FALSE),
   ([78, 85, 76, 76], .NULL),
   ([78, 79, 84], .NOT),
   ([73, 78], .IN),
   ([78, 73, 78], .NIN),
   ([83, 85, 66, 83, 69, 84, 79, 70], .SUBSETOF),
   ([67, 79, 78, 84, 65, 73, 78, 83], .CONTAINS),
   ([83, 73, 90, 69], .SIZE),
   ([69, 77, 80, 84, 89], .EMPTY)]

/-- One lexer pattern: its regular expression, the kind it produces, and its
logos disambiguation priority (2 per literal byte for `#[token]` patterns;
regex patterns score lower).  Priorities only decide ties between matches of
equal length; in this grammar the only possible tie between distinct kinds
is a keyword against `Ident`, and every keyword priority exceeds the
`Ident` priority. -/
structure Entry where
  re : RE
  kind : TokenKind
  prio : Nat
deriving Repr, DecidableEq

/-- All lexer patterns of `TokenKind`, in declaration order. -/
def entries : List Entry :=
  [⟨wsRE, .Whitespace, 1⟩,
   ⟨identRE, .Ident, 1⟩,
   ⟨btRE, .QuotedString, 4⟩,
   ⟨dqRE, .QuotedString, 4⟩,
   ⟨sqRE, .QuotedString, 4⟩,
   ⟨intRE, .LiteralInteger, 1⟩,
   ⟨floatARE, .LiteralFloat, 3⟩,
   ⟨floatBRE, .LiteralFloat, 2⟩]
  ++ punctTable.map (fun p => ⟨litRE p.1, p.2, 2 * p.1.length⟩)
  ++ keywordTable.map (fun p => ⟨litCIRE p.1, p.2, 2 * p.1.length⟩)

/-- One fold step of `bestMatch`: keep the running best match (kind, length,
priority), replacing it when the new pattern matches strictly longer, or
equally long with higher priority. -/
def pickStep (s : List Nat) (acc : Option (TokenKind × Nat × Nat))
    (e : Entry) : Option (TokenKind × Nat × Nat) :=
  match e.re.maxM s with
  | none => acc
  | some n =>
    match acc with
    | none => some (e.kind, n, e.prio)
    | some (k0, n0, p0) =>
      if n0 < n ∨ (n0 = n ∧ p0 < e.prio) then some (e.kind, n, e.prio)
      else some (k0, n0, p0)

/-- The longest match over all patterns at the start of `s`, with ties broken
by priority: the token the logos DFA recognizes there, or `none` when no
pattern matches (logos's error case). -/
def bestMatch (s : List Nat) : Option (TokenKind × Nat) :=
  (entries.foldl (pickStep s) none).map (fun x => (x.1, x.2.1))

/-- A byte span into the source, `Range` of the exception module.
Modelled from the spec: the exception module is not under src/; the spec
says errors carry "an optional span into the source text" and writes spans
as `start..end` byte ranges. -/
structure Span where
  start : Nat
  stop : Nat
deriving Repr, DecidableEq

/-- A lexed token: its kind and its byte span (every token of one run shares
the same `source` field in the Rust code, so the slice is omitted here). -/
structure Token where
  kind : TokenKind
  span : Span
deriving Repr, DecidableEq

/-- `Token::new_eoi`: the synthetic EOI token with the empty span
`source.len()..source.len()`. -/
def Token.newEoi (len : Nat) : Token := ⟨.EOI, ⟨len, len⟩⟩

/-- `ErrorCode` of the exception module.
Modelled from the spec: the exception module is not under src/; the spec
lists `SyntaxException` as the error kind raised by the lexer, carrying a
message. -/
inductive ErrorCode where
  | SyntaxException : String → ErrorCode
deriving Repr, DecidableEq

/-- An error together with its optional span (`ErrorCode::set_span`).
Modelled from the spec: "Errors carry a kind and an optional span into the
source text." -/
structure LexError where
  code : ErrorCode
  span : Option Span
deriving Repr, DecidableEq

/-- One item yielded by the `Tokenizer` iterator: `Result<Token>`. -/
inductive LexItem where
  | ok : Token → LexItem
  | error : LexError → LexItem
deriving Repr, DecidableEq

/-- The mutable state of `Tokenizer`: the lexer position and the `eoi` flag. -/
structure LexState where
  pos : Nat
  eoi : Bool
deriving Repr, DecidableEq

/-- `Tokenizer::next`, with explicit fuel for the whitespace-skip loop that
the logos lexer runs internally (`logos::skip` restarts the lexer after a
whitespace match; each such match consumes at least one byte, so fuel
`src.length - pos + 1` always suffices).  The four outcomes mirror the four
arms of the `match` in `Tokenizer::next`:
a recognized token, the `SyntaxException` error with span from the failed
offset to end of input, the one-shot EOI token, and `None`.
After an error the iterator is not polled again by the code under
verification (the parser collects into `Result`), so the position stored in
the error state is not observable; it is set to the end of input. -/
def nextTokAux (src : List Nat) : Nat → Nat → Bool → Option LexItem × LexState
  | 0, pos, eoi => (none, ⟨pos, eoi⟩)
  | fuel + 1, pos, eoi =>
    match bestMatch (src.drop pos) with
    | some (k, n) =>
      if k = .Whitespace then nextTokAux src fuel (pos + n) eoi
      else (some (.ok ⟨k, ⟨pos, pos + n⟩⟩), ⟨pos + n, eoi⟩)
    | none =>
      if pos < src.length then
        (some (.error ⟨.SyntaxException "unable to recognize the rest tokens",
                       some ⟨pos, src.length⟩⟩),
         ⟨src.length, eoi⟩)
      else if eoi then (none, ⟨pos, eoi⟩)
      else (some (.ok (Token.newEoi src.length)), ⟨pos, true⟩)

/-- `Tokenizer::next` on a tokenizer state. -/
def nextTok (src : List Nat) (st : LexState) : Option LexItem × LexState :=
  nextTokAux src (src.length - st.pos + 1) st.pos st.eoi

/-- Iterating the tokenizer: collect yielded items until `None`.  Iteration
stops after an error item, matching how the repository consumes the
iterator (collecting into `Result<Vec<Token>>`).  Each yielded token
consumes at least one byte, or sets the `eoi` flag, so fuel
`src.length + 2` always suffices. -/
def tokensAux (src : List Nat) : Nat → LexState → List LexItem
  | 0, _ => []
  | fuel + 1, st =>
    match nextTok src st with
    | (none, _) => []
    | (some (.error e), _) => [.error e]
    | (some (.ok t), st') => .ok t :: tokensAux src fuel st'

/-- The full token stream of an input. -/
def tokenize (src : List Nat) : List LexItem :=
  tokensAux src (src.length + 2) ⟨0, false⟩

/-- `TokenKind::is_keyword` (token.rs), the negated match over the
non-keyword variants. -/
def TokenKind.is_keyword (k : TokenKind) : Bool :=
  !(match k with
    | .Ident | .Dollar | .QuotedString | .LiteralInteger | .LiteralFloat
    | .DoubleEq | .Eq | .NotEq | .Lt | .Gt | .Lte | .Gte | .Spaceship
    | .Plus | .Minus | .Multiply | .Divide | .Modulo | .StringConcat
    | .LParen | .RParen | .Comma | .Period | .DoublePeriod | .Colon
    | .DoubleColon | .SemiColon | .Backslash | .LBracket | .RBracket
    | .Caret | .LBrace | .RBrace | .AtSign | .EOI => true
    | _ => false)

/-- `TokenKind::is_reserved_ident` (token.rs). -/
def TokenKind.is_reserved_ident (k : TokenKind) : Bool :=
  match k with
  | .AND | .OR => true
  | _ => false

/-- The `strum::EnumIter` iteration order: all variants in declaration
order. -/
def TokenKind.all : List TokenKind :=
  [.Error, .EOI, .Whitespace, .Ident, .QuotedString, .LiteralInteger,
   .LiteralFloat, .Dollar, .DoubleEq, .Eq, .NotEq, .Lt, .Gt, .Lte, .Gte,
   .Spaceship, .Plus, .Minus, .Multiply, .Divide, .Modulo, .StringConcat,
   .LParen, .RParen, .Comma, .Period, .DoublePeriod, .Colon, .DoubleColon,
   .SemiColon, .Backslash, .LBracket, .RBracket, .Caret, .LBrace, .RBrace,
   .AtSign, .Placeholder, .AND, .OR, .TRUE, .FALSE, .NULL, .NOT, .IN, .NIN,
   .SUBSETOF, .CONTAINS, .SIZE, .EMPTY]

/-- The `Debug` name of a variant, as produced by `format!("{:?}", token)`. -/
def TokenKind.debugName : TokenKind → String
  | .Error => "Error"
  | .EOI => "EOI"
  | .Whitespace => "Whitespace"
  | .Ident => "Ident"
  | .QuotedString => "QuotedString"
  | .LiteralInteger => "LiteralInteger"
  | .LiteralFloat => "LiteralFloat"
  | .Dollar => "Dollar"
  | .DoubleEq => "DoubleEq"
  | .Eq => "Eq"
  | .NotEq => "NotEq"
  | .Lt => "Lt"
  | .Gt => "Gt"
  | .Lte => "Lte"
  | .Gte => "Gte"
  | .Spaceship => "Spaceship"
  | .Plus => "Plus"
  | .Minus => "Minus"
  | .Multiply => "Multiply"
  | .Divide => "Divide"
  | .Modulo => "Modulo"
  | .StringConcat => "StringConcat"
  | .LParen => "LParen"
  | .RParen => "RParen"
  | .Comma => "Comma"
  | .Period => "Period"
  | .DoublePeriod => "DoublePeriod"
  | .Colon => "Colon"
  | .DoubleColon => "DoubleColon"
  | .SemiColon => "SemiColon"
  | .Backslash => "Backslash"
  | .LBracket => "LBracket"
  | .RBracket => "RBracket"
  | .Caret => "Caret"
  | .LBrace => "LBrace"
  | .RBrace => "RBrace"
  | .AtSign => "AtSign"
  | .Placeholder => "Placeholder"
  | .AND => "AND"
  | .OR => "OR"
  | .TRUE => "TRUE"
  | .FALSE => "FALSE"
  | .NULL => "NULL"
  | .NOT => "NOT"
  | .IN => "IN"
  | .NIN => "NIN"
  | .SUBSETOF => "SUBSETOF"
  | .CONTAINS => "CONTAINS"
  | .SIZE => "SIZE"
  | .EMPTY => "EMPTY"

/-- `all_reserved_keywords` (token.rs): Debug-format every variant produced
by `TokenKind::iter()`. -/
def all_reserved_keywords : List String :=
  TokenKind.all.map TokenKind.debugName

def LexItem.isOk : LexItem → Bool
  | .ok _ => true
  | .error _ => false

/-- Does the item carry an EOI token? -/
def isEOIItem : LexItem → Bool
  | .ok t => t.kind == .EOI
  | .error _ => false

/-- A whitespace byte of the lexer: space, tab, CR, LF, form feed. -/
def isWsB (b : Nat) : Bool :=
  b == 9 || b == 10 || b == 12 || b == 13 || b == 32

/-- A byte that may start an identifier: `[_a-zA-Z]`. -/
def isIdentStart (b : Nat) : Bool :=
  (65 ≤ b && b ≤ 90) || b == 95 || (97 ≤ b && b ≤ 122)

/-- A byte that may continue an identifier: `[_$a-zA-Z0-9]`. -/
def isIdentCont (b : Nat) : Bool :=
  b == 36 || (48 ≤ b && b ≤ 57) || (65 ≤ b && b ≤ 90) || b == 95 ||
    (97 ≤ b && b ≤ 122)

/-- The identifier shape of the claim: `[A-Za-z_][A-Za-z0-9_$]*`. -/
def identShaped (s : List Nat) : Bool :=
  match s with
  | [] => false
  | b :: t => isIdentStart b && t.all isIdentCont

/-- All bytes at which an identifier or keyword match can begin. -/
def identStartBytes : List Nat := (List.range 256).filter isIdentStart

/-- ASCII lower-casing of a byte. -/
def lowerB (b : Nat) : Nat := if 65 ≤ b ∧ b ≤ 90 then b + 32 else b

/-- An ASCII digit byte. -/
def isDigit (b : Nat) : Bool := 48 ≤ b && b ≤ 57

/-- The integer-literal shape of the claim: an optional `-` (byte 45)
followed by one or more digits. -/
def intShaped (s : List Nat) : Bool :=
  match s with
  | [] => false
  | b :: t =>
    if b = 45 then !t.isEmpty && t.all isDigit
    else isDigit b && t.all isDigit

/-- The exponent-part shape: `[eE][+-]?[0-9]+`. -/
def expShaped (ex : List Nat) : Prop :=
  ∃ c sg d, ex = c :: (sg ++ d) ∧ (c = 69 ∨ c = 101) ∧
    (sg = [] ∨ sg = [43] ∨ sg = [45]) ∧ d ≠ [] ∧ d.all isDigit = true

/-- The float-literal shape of the claim: a decimal number containing `.`
(byte 46) with digits on at least one side and an optional exponent, or a
digit string with a mandatory exponent. -/
def floatShaped (s : List Nat) : Prop :=
  (∃ pre post ex, s = pre ++ 46 :: (post ++ ex) ∧ pre.all isDigit = true ∧
    post.all isDigit = true ∧ (pre ≠ [] ∨ post ≠ []) ∧
    (ex = [] ∨ expShaped ex)) ∨
  (∃ d ex, s = d ++ ex ∧ d ≠ [] ∧ d.all isDigit = true ∧ expShaped ex)

/-- All bytes at which a numeric literal, `-`, `.` or `..` match can begin. -/
def numStartBytes : List Nat :=
  (List.range 256).filter (fun b => isDigit b || b == 45 || b == 46)

/-- The body shape of a quoted string with quote byte `q`: a sequence of
plain bytes (neither the quote nor a backslash), backslash-escape pairs
(the escaped byte is any byte but LF, the regex dot), and doubled quotes.
Inputs are byte strings, so every byte is below 256. -/
def quotedBody (q : Nat) : List Nat → Bool
  | [] => true
  | b :: rest =>
    if b = q then
      match rest with
      | b2 :: rest2 => decide (b2 = q) && quotedBody q rest2
      | [] => false
    else if b = 92 then
      match rest with
      | b2 :: rest2 =>
        decide (b2 ≠ 10) && decide (b2 < 256) && quotedBody q rest2
      | [] => false
    else decide (b ≠ 92) && decide (b < 256) && quotedBody q rest

/-- The generic one-unit pattern of a quoted-string body; `dqUnit` and
`sqUnit` are its instances at `q = 34` and `q = 39`. -/
def quoteUnit (q : Nat) (rs : List (Nat × Nat)) : RE :=
  .alt (.cls rs)
    (.alt (.seq (.cls [(92, 92)]) (.cls [(0, 9), (11, 255)]))
      (.seq (.cls [(q, q)]) (.cls [(q, q)])))

theorem matches_emp {t : List Nat} : ¬ Matches .emp t := by
  intro h; cases h

theorem nullable_of_matches_nil {r : RE} (h : Matches r []) :
    r.nullable = true := by
  generalize ht : ([] : List Nat) = t at h
  induction h with
  | eps => rfl
  | cls _ => simp at ht
  | seqm h1 h2 ih1 ih2 =>
    rcases List.append_eq_nil.mp ht.symm with ⟨e1, e2⟩
    simp [RE.nullable, ih1 e1.symm, ih2 e2.symm]
  | altL h ih => simp [RE.nullable, ih ht]
  | altR h ih => simp [RE.nullable, ih ht]
  | starNil => rfl
  | starCons h1 h2 ih1 ih2 => rfl

theorem matches_nil_of_nullable {r : RE} (h : r.nullable = true) :
    Matches r [] := by
  induction r with
  | emp => simp [RE.nullable] at h
  | eps => exact .eps
  | cls rs => simp [RE.nullable] at h
  | seq a b iha ihb =>
    simp [RE.nullable] at h
    exact (List.nil_append [] ▸ Matches.seqm (iha h.1) (ihb h.2) :)
  | alt a b iha ihb =>
    simp [RE.nullable] at h
    rcases h with h | h
    · exact .altL (iha h)
    · exact .altR (ihb h)
  | star r ih => exact .starNil

theorem nullable_iff {r : RE} : r.nullable = true ↔ Matches r [] :=
  ⟨matches_nil_of_nullable, nullable_of_matches_nil⟩

theorem matches_of_deriv {r : RE} {b : Nat} {t : List Nat}
    (h : Matches (r.deriv b) t) : Matches r (b :: t) := by
  induction r generalizing t with
  | emp => exact absurd h matches_emp
  | eps => exact absurd h matches_emp
  | cls rs =>
    by_cases hb : inRanges rs b = true
    · simp [RE.deriv, hb] at h
      cases h
      exact .cls hb
    · simp [RE.deriv, hb] at h
      exact absurd h matches_emp
  | seq a c iha ihc =>
    by_cases hn : a.nullable = true
    · simp [RE.deriv, hn] at h
      cases h with
      | altL h1 =>
        cases h1 with
        | seqm hm1 hm2 =>
          exact (List.cons_append _ _ _ ▸ Matches.seqm (iha hm1) hm2 :)
      | altR h2 =>
        have := Matches.seqm (matches_nil_of_nullable hn) (ihc h2)
        simpa using this
    · simp [RE.deriv, hn] at h
      cases h with
      | seqm hm1 hm2 =>
        exact (List.cons_append _ _ _ ▸ Matches.seqm (iha hm1) hm2 :)
  | alt a c iha ihc =>
    cases h with
    | altL h1 => exact .altL (iha h1)
    | altR h2 => exact .altR (ihc h2)
  | star r ih =>
    cases h with
    | seqm hm1 hm2 =>
      exact (List.cons_append _ _ _ ▸ Matches.starCons (ih hm1) hm2 :)

theorem deriv_of_matches {r : RE} {s : List Nat} (h : Matches r s) :
    ∀ b t, s = b :: t → Matches (r.deriv b) t := by
  induction h with
  | eps => intro b t ht; simp at ht
  | cls hb =>
    intro b t ht
    obtain ⟨hb', ht'⟩ := List.cons.inj ht
    subst hb' ht'
    simp [RE.deriv, hb]
    exact .eps
  | @seqm r1 r2 t1 t2 h1 h2 ih1 ih2 =>
    intro b t ht
    cases t1 with
    | nil =>
      simp at ht
      have hn : r1.nullable = true := nullable_of_matches_nil h1
      simp [RE.deriv, hn]
      exact .altR (ih2 b t ht)
    | cons x t1t =>
      simp at ht
      obtain ⟨hx, ht'⟩ := ht
      have hm : Matches ((r1.deriv b).seq r2) (t1t ++ t2) :=
        .seqm (ih1 b t1t (by rw [hx])) h2
      by_cases hn : r1.nullable = true
      · simp [RE.deriv, hn]
        exact ht' ▸ Matches.altL hm
      · simp [RE.deriv, hn]
        exact ht' ▸ hm
  | altL h1 ih =>
    intro b t ht
    simp [RE.deriv]
    exact .altL (ih b t ht)
  | altR h2 ih =>
    intro b t ht
    simp [RE.deriv]
    exact .altR (ih b t ht)
  | starNil => intro b t ht; simp at ht
  | @starCons r t1 t2 h1 h2 ih1 ih2 =>
    intro b t ht
    cases t1 with
    | nil => simp at ht; exact ih2 b t ht
    | cons x t1t =>
      simp at ht
      obtain ⟨hx, ht'⟩ := ht
      simp [RE.deriv]
      exact ht' ▸ Matches.seqm (ih1 b t1t (by rw [hx])) h2

theorem deriv_iff {r : RE} {b : Nat} {t : List Nat} :
    Matches (r.deriv b) t ↔ Matches r (b :: t) :=
  ⟨matches_of_deriv, fun h => deriv_of_matches h b t rfl⟩

theorem maxM_sound : ∀ (s : List Nat) (r : RE) (n : Nat),
    r.maxM s = some n → 1 ≤ n ∧ n ≤ s.length ∧ Matches r (s.take n) := by
  intro s
  induction s with
  | nil => intro r n h; simp [RE.maxM] at h
  | cons b s ih =>
    intro r n h
    rw [RE.maxM] at h
    cases hd : (r.deriv b).maxM s with
    | some m =>
      rw [hd] at h
      obtain rfl : m + 1 = n := by simpa using h
      obtain ⟨h1, h2, h3⟩ := ih _ _ hd
      refine ⟨by omega, by simpa using h2, ?_⟩
      simpa using matches_of_deriv h3
    | none =>
      rw [hd] at h
      by_cases hn : (r.deriv b).nullable = true
      · simp [hn] at h
        obtain rfl : 1 = n := h
        refine ⟨le_refl 1, by simp, ?_⟩
        simpa using matches_of_deriv (matches_nil_of_nullable hn)
      · simp [hn] at h

theorem maxM_complete : ∀ (s : List Nat) (r : RE) (n : Nat),
    1 ≤ n → n ≤ s.length → Matches r (s.take n) →
    ∃ m, r.maxM s = some m ∧ n ≤ m := by
  intro s
  induction s with
  | nil => intro r n h1 h2 _; simp at h2; omega
  | cons b s ih =>
    intro r n h1 h2 hm
    have htake : (b :: s).take n = b :: s.take (n - 1) := by
      cases n with
      | zero => omega
      | succ k => simp
    rw [htake] at hm
    have hd : Matches (r.deriv b) (s.take (n - 1)) :=
      deriv_of_matches hm b _ rfl
    rw [RE.maxM]
    by_cases hn1 : 1 ≤ n - 1
    · have h2' : n - 1 ≤ s.length := by simp at h2; omega
      obtain ⟨m, hm1, hm2⟩ := ih _ _ hn1 h2' hd
      exact ⟨m + 1, by rw [hm1], by omega⟩
    · have hn0 : n = 1 := by omega
      have hnil : s.take (n - 1) = [] := by simp [hn0]
      rw [hnil] at hd
      have hnull : (r.deriv b).nullable = true := nullable_of_matches_nil hd
      cases hms : (r.deriv b).maxM s with
      | some m => exact ⟨m + 1, rfl, by omega⟩
      | none => exact ⟨1, by simp [hnull], by omega⟩

theorem maxM_bounds {s : List Nat} {r : RE} {n : Nat} (h : r.maxM s = some n) :
    1 ≤ n ∧ n ≤ s.length :=
  ⟨(maxM_sound s r n h).1, (maxM_sound s r n h).2.1⟩

theorem maxM_nil (r : RE) : r.maxM [] = none := rfl

theorem dead_not_nullable : ∀ {r : RE}, r.dead = true → r.nullable = false := by
  intro r
  induction r with
  | emp => intro _; rfl
  | eps => intro h; simp [RE.dead] at h
  | cls rs => intro _; rfl
  | seq a b iha ihb =>
    intro h
    simp [RE.dead] at h
    rcases h with h | h
    · simp [RE.nullable, iha h]
    · simp [RE.nullable, ihb h]
  | alt a b iha ihb =>
    intro h
    simp [RE.dead] at h
    simp [RE.nullable, iha h.1, ihb h.2]
  | star r ih => intro h; simp [RE.dead] at h

theorem inRanges_of_dead_cls {rs : List (Nat × Nat)}
    (h : (RE.cls rs).dead = true) (b : Nat) : inRanges rs b = false := by
  simp [RE.dead] at h
  simp [inRanges]
  intro lo hi hm
  have := h lo hi hm
  omega

theorem dead_deriv : ∀ {r : RE} (b : Nat), r.dead = true → (r.deriv b).dead = true := by
  intro r
  induction r with
  | emp => intro b _; rfl
  | eps => intro b h; simp [RE.dead] at h
  | cls rs =>
    intro b h
    rw [RE.deriv, inRanges_of_dead_cls h b]
    rfl
  | seq a c iha ihc =>
    intro b h
    have hsplit : a.dead = true ∨ c.dead = true := by
      simpa [RE.dead] using h
    rcases hsplit with ha | hc
    · have hn : a.nullable = false := dead_not_nullable ha
      simp [RE.deriv, hn, RE.dead, iha b ha]
    · by_cases hn : a.nullable = true
      · simp [RE.deriv, hn, RE.dead, ihc b hc, hc]
      · simp [RE.deriv, hn, RE.dead, hc]
  | alt a c iha ihc =>
    intro b h
    simp [RE.dead] at h
    simp [RE.deriv, RE.dead, iha b h.1, ihc b h.2]
  | star r ih => intro b h; simp [RE.dead] at h

theorem dead_maxM : ∀ (s : List Nat) {r : RE}, r.dead = true → r.maxM s = none := by
  intro s
  induction s with
  | nil => intro r _; rfl
  | cons b s ih =>
    intro r h
    have hd : (r.deriv b).dead = true := dead_deriv b h
    rw [RE.maxM, ih hd, dead_not_nullable hd]
    simp

theorem dead_no_matches : ∀ (t : List Nat) {r : RE}, r.dead = true →
    ¬ Matches r t := by
  intro t
  induction t with
  | nil =>
    intro r hd hm
    have := nullable_of_matches_nil hm
    rw [dead_not_nullable hd] at this
    cases this
  | cons b t ih =>
    intro r hd hm
    exact ih (dead_deriv b hd) (deriv_of_matches hm b t rfl)

theorem startKill_maxM {r : RE} {bs : List Nat} {b : Nat} {s : List Nat}
    (h : startKill r bs = true) (hb : b ∈ bs) : r.maxM (b :: s) = none := by
  have hd : (r.deriv b).dead = true := by
    simp [startKill] at h
    exact h b hb
  rw [RE.maxM, dead_maxM s hd, dead_not_nullable hd]
  simp

theorem matches_cls_iff {rs : List (Nat × Nat)} {t : List Nat} :
    Matches (.cls rs) t ↔ ∃ b, t = [b] ∧ inRanges rs b = true := by
  constructor
  · intro h
    cases h with
    | cls hb => exact ⟨_, rfl, hb⟩
  · rintro ⟨b, rfl, hb⟩
    exact .cls hb

theorem matches_seq_iff {r1 r2 : RE} {t : List Nat} :
    Matches (.seq r1 r2) t ↔
      ∃ t1 t2, t = t1 ++ t2 ∧ Matches r1 t1 ∧ Matches r2 t2 := by
  constructor
  · intro h
    cases h with
    | seqm h1 h2 => exact ⟨_, _, rfl, h1, h2⟩
  · rintro ⟨t1, t2, rfl, h1, h2⟩
    exact .seqm h1 h2

theorem matches_alt_iff {r1 r2 : RE} {t : List Nat} :
    Matches (.alt r1 r2) t ↔ Matches r1 t ∨ Matches r2 t := by
  constructor
  · intro h
    cases h with
    | altL h1 => exact Or.inl h1
    | altR h2 => exact Or.inr h2
  · rintro (h | h)
    · exact .altL h
    · exact .altR h

theorem matches_eps_iff {t : List Nat} : Matches .eps t ↔ t = [] := by
  constructor
  · intro h; cases h; rfl
  · rintro rfl; exact .eps

theorem matches_starCls {rs : List (Nat × Nat)} {t : List Nat} :
    Matches (.star (.cls rs)) t ↔ t.all (inRanges rs) = true := by
  constructor
  · intro h
    generalize hr : RE.star (.cls rs) = r at h
    induction h with
    | eps => simp at hr
    | cls _ => simp at hr
    | seqm _ _ _ _ => simp at hr
    | altL _ _ => simp at hr
    | altR _ _ => simp at hr
    | starNil => rfl
    | @starCons r t1 t2 h1 h2 ih1 ih2 =>
      obtain rfl : RE.cls rs = r := by
        injection hr
      obtain ⟨b, rfl, hb⟩ := matches_cls_iff.mp h1
      simp [ih2 rfl, hb]
  · intro h
    induction t with
    | nil => exact .starNil
    | cons b t ih =>
      simp at h
      have : Matches (.star (.cls rs)) ([b] ++ t) :=
        .starCons (.cls h.1) (ih (by simp [List.all_eq_true]; exact h.2))
      simpa using this

theorem matches_plusCls {rs : List (Nat × Nat)} {t : List Nat} :
    Matches (plusCls rs) t ↔ t ≠ [] ∧ t.all (inRanges rs) = true := by
  rw [plusCls, matches_seq_iff]
  constructor
  · rintro ⟨t1, t2, rfl, h1, h2⟩
    obtain ⟨b, rfl, hb⟩ := matches_cls_iff.mp h1
    have := matches_starCls.mp h2
    simp [this, hb]
  · rintro ⟨hne, hall⟩
    cases t with
    | nil => exact absurd rfl hne
    | cons b t =>
      simp at hall
      exact ⟨[b], t, rfl, .cls hall.1,
        matches_starCls.mpr (by simp [List.all_eq_true]; exact hall.2)⟩

theorem matches_optRE {r : RE} {t : List Nat} :
    Matches (optRE r) t ↔ t = [] ∨ Matches r t := by
  rw [optRE, matches_alt_iff, matches_eps_iff]
  exact Or.comm

theorem matches_litRE : ∀ {w t : List Nat}, Matches (litRE w) t ↔ t = w := by
  intro w
  induction w with
  | nil => intro t; rw [litRE, matches_eps_iff]
  | cons b w ih =>
    intro t
    rw [litRE, matches_seq_iff]
    constructor
    · rintro ⟨t1, t2, rfl, h1, h2⟩
      obtain ⟨c, rfl, hc⟩ := matches_cls_iff.mp h1
      simp [inRanges] at hc
      have : c = b := by omega
      simp [this, ih.mp h2]
    · rintro rfl
      exact ⟨[b], w, rfl, .cls (by simp [inRanges]), ih.mpr rfl⟩

theorem matches_litCIRE : ∀ {w t : List Nat},
    Matches (litCIRE w) t ↔ caseVariantB t w = true := by
  intro w
  induction w with
  | nil =>
    intro t
    rw [litCIRE, matches_eps_iff]
    cases t <;> simp [caseVariantB]
  | cons c w ih =>
    intro t
    rw [litCIRE, matches_seq_iff]
    constructor
    · rintro ⟨t1, t2, rfl, h1, h2⟩
      obtain ⟨b, rfl, hb⟩ := matches_cls_iff.mp h1
      simp [inRanges] at hb
      simp [caseVariantB, ih.mp h2]
      omega
    · intro h
      cases t with
      | nil => simp [caseVariantB] at h
      | cons b t =>
        simp [caseVariantB] at h
        refine ⟨[b], t, rfl, .cls ?_, ih.mpr h.2⟩
        simp [inRanges]
        omega

theorem caseVariantB_length : ∀ {t w : List Nat},
    caseVariantB t w = true → t.length = w.length := by
  intro t
  induction t with
  | nil => intro w h; cases w with
    | nil => rfl
    | cons c w => simp [caseVariantB] at h
  | cons b t ih =>
    intro w h
    cases w with
    | nil => simp [caseVariantB] at h
    | cons c w =>
      simp [caseVariantB] at h
      simp [ih h.2]

theorem pickStep_eq_none {s : List Nat} {acc : Option (TokenKind × Nat × Nat)}
    {e : Entry} (hm : e.re.maxM s = none) : pickStep s acc e = acc := by
  simp [pickStep, hm]

theorem pickStep_eq_fresh {s : List Nat} {e : Entry} {n : Nat}
    (hm : e.re.maxM s = some n) :
    pickStep s none e = some (e.kind, n, e.prio) := by
  simp [pickStep, hm]

theorem pickStep_eq_upd {s : List Nat} {e : Entry} {n : Nat}
    {k0 : TokenKind} {n0 p0 : Nat} (hm : e.re.maxM s = some n) :
    pickStep s (some (k0, n0, p0)) e =
      if n0 < n ∨ (n0 = n ∧ p0 < e.prio) then some (e.kind, n, e.prio)
      else some (k0, n0, p0) := by
  simp [pickStep, hm]

theorem pickStep_fold_keep (s : List Nat) (k : TokenKind) (n p : Nat) :
    ∀ (l : List Entry) (acc : Option (TokenKind × Nat × Nat)),
    (∀ e ∈ l, ∀ m, e.re.maxM s = some m →
      m < n ∨ (m = n ∧ (e.prio < p ∨ e.kind = k))) →
    (∃ p0, p ≤ p0 ∧ acc = some (k, n, p0)) →
    ∃ p1, p ≤ p1 ∧ l.foldl (pickStep s) acc = some (k, n, p1) := by
  intro l
  induction l with
  | nil => intro acc _ hacc; simpa using hacc
  | cons e rest ih =>
    intro acc hmax hacc
    obtain ⟨p0, hp0, rfl⟩ := hacc
    have hmaxr : ∀ e' ∈ rest, ∀ m, e'.re.maxM s = some m →
        m < n ∨ (m = n ∧ (e'.prio < p ∨ e'.kind = k)) :=
      fun e' he' => hmax e' (List.mem_cons_of_mem _ he')
    rw [List.foldl_cons]
    cases hm : e.re.maxM s with
    | none =>
      rw [pickStep_eq_none hm]
      exact ih _ hmaxr ⟨p0, hp0, rfl⟩
    | some m =>
      rw [pickStep_eq_upd hm]
      rcases hmax e (List.mem_cons_self _ _) m hm with hlt | ⟨heq, hor⟩
      · rw [if_neg (by omega)]
        exact ih _ hmaxr ⟨p0, hp0, rfl⟩
      · rcases hor with hplt | hkind
        · rw [if_neg (by omega)]
          exact ih _ hmaxr ⟨p0, hp0, rfl⟩
        · by_cases hcond : n < m ∨ (n = m ∧ p0 < e.prio)
          · rw [if_pos hcond]
            refine ih _ hmaxr ⟨e.prio, by omega, ?_⟩
            rw [hkind, heq]
          · rw [if_neg hcond]
            exact ih _ hmaxr ⟨p0, hp0, rfl⟩

theorem pickStep_fold_win (s : List Nat) (k : TokenKind) (n p : Nat) :
    ∀ (l : List Entry) (acc : Option (TokenKind × Nat × Nat)),
    (∀ e ∈ l, ∀ m, e.re.maxM s = some m →
      m < n ∨ (m = n ∧ (e.prio < p ∨ e.kind = k))) →
    (∃ e ∈ l, e.kind = k ∧ e.prio = p ∧ e.re.maxM s = some n) →
    (∀ k0 n0 p0, acc = some (k0, n0, p0) →
      n0 ≤ n ∧ (n0 = n → (k0 = k ∨ p0 < p))) →
    ∃ p1, p ≤ p1 ∧ l.foldl (pickStep s) acc = some (k, n, p1) := by
  intro l
  induction l with
  | nil => rintro acc _ ⟨e, he, _⟩ _; simp at he
  | cons e rest ih =>
    intro acc hmax hwin hacc
    have hmaxr : ∀ e' ∈ rest, ∀ m, e'.re.maxM s = some m →
        m < n ∨ (m = n ∧ (e'.prio < p ∨ e'.kind = k)) :=
      fun e' he' => hmax e' (List.mem_cons_of_mem _ he')
    rw [List.foldl_cons]
    obtain ⟨w, hw, hwk, hwp, hwm⟩ := hwin
    rcases List.mem_cons.mp hw with rfl | hwrest
    · -- the head entry is the winner
      cases hacc0 : acc with
      | none =>
        rw [pickStep_eq_fresh hwm, hwk, hwp]
        exact pickStep_fold_keep s k n p rest _ hmaxr ⟨p, le_refl p, rfl⟩
      | some x =>
        obtain ⟨k0, n0, p0⟩ := x
        obtain ⟨hn0, himp⟩ := hacc k0 n0 p0 hacc0
        rw [pickStep_eq_upd hwm]
        by_cases hcond : n0 < n ∨ (n0 = n ∧ p0 < w.prio)
        · rw [if_pos hcond, hwk, hwp]
          exact pickStep_fold_keep s k n p rest _ hmaxr ⟨p, le_refl p, rfl⟩
        · have hn0n : n0 = n := by omega
          have hp0p : p ≤ p0 := by rw [hwp] at hcond; omega
          rcases himp hn0n with hk0 | hplt
          · rw [if_neg hcond, hn0n, hk0]
            exact pickStep_fold_keep s k n p rest _ hmaxr ⟨p0, hp0p, rfl⟩
          · omega
    · -- the winner is further on; the head entry preserves the invariant
      refine ih _ hmaxr ⟨w, hwrest, hwk, hwp, hwm⟩ ?_
      intro k0 n0 p0 hstep
      cases hm : e.re.maxM s with
      | none =>
        rw [pickStep_eq_none hm] at hstep
        exact hacc k0 n0 p0 hstep
      | some m =>
        have hme := hmax e (List.mem_cons_self _ _) m hm
        cases hacc0 : acc with
        | none =>
          rw [hacc0, pickStep_eq_fresh hm] at hstep
          obtain ⟨rfl, rfl, rfl⟩ : e.kind = k0 ∧ m = n0 ∧ e.prio = p0 := by
            refine ⟨?_, ?_, ?_⟩ <;> cases hstep <;> rfl
          refine ⟨by omega, fun h => ?_⟩
          rcases hme with h1 | ⟨h2, h3 | h4⟩
          · omega
          · exact Or.inr h3
          · exact Or.inl h4
        | some x =>
          obtain ⟨k1, n1, p1⟩ := x
          rw [hacc0, pickStep_eq_upd hm] at hstep
          by_cases hcond : n1 < m ∨ (n1 = m ∧ p1 < e.prio)
          · rw [if_pos hcond] at hstep
            obtain ⟨rfl, rfl, rfl⟩ : e.kind = k0 ∧ m = n0 ∧ e.prio = p0 := by
              refine ⟨?_, ?_, ?_⟩ <;> cases hstep <;> rfl
            refine ⟨by omega, fun h => ?_⟩
            rcases hme with h1 | ⟨h2, h3 | h4⟩
            · omega
            · exact Or.inr h3
            · exact Or.inl h4
          · rw [if_neg hcond] at hstep
            cases hstep
            exact hacc _ _ _ hacc0

/-- The central disambiguation lemma: if some pattern of kind `k` and
priority `p` matches exactly `n` bytes, and every pattern match is either
shorter, or of the same length with lower priority, or of the same kind,
then the lexer recognizes a token of kind `k` and length `n`. -/
theorem bestMatch_spec {s : List Nat} {k : TokenKind} {n p : Nat}
    (hwin : ∃ e ∈ entries, e.kind = k ∧ e.prio = p ∧ e.re.maxM s = some n)
    (hmax : ∀ e ∈ entries, ∀ m, e.re.maxM s = some m →
      m < n ∨ (m = n ∧ (e.prio < p ∨ e.kind = k))) :
    bestMatch s = some (k, n) := by
  obtain ⟨p1, _, hfold⟩ :=
    pickStep_fold_win s k n p entries none hmax hwin (by intro _ _ _ h; cases h)
  rw [bestMatch, hfold]
  rfl

theorem pickStep_fold_mem (s : List Nat) :
    ∀ (l : List Entry) (acc : Option (TokenKind × Nat × Nat))
      (k0 : TokenKind) (n0 p0 : Nat),
    l.foldl (pickStep s) acc = some (k0, n0, p0) →
    acc = some (k0, n0, p0) ∨
      ∃ e ∈ l, e.kind = k0 ∧ e.prio = p0 ∧ e.re.maxM s = some n0 := by
  intro l
  induction l with
  | nil => intro acc k0 n0 p0 h; exact Or.inl (by simpa using h)
  | cons e rest ih =>
    intro acc k0 n0 p0 h
    rw [List.foldl_cons] at h
    rcases ih _ _ _ _ h with hstep | ⟨e', he', h1, h2, h3⟩
    · cases hm : e.re.maxM s with
      | none =>
        rw [pickStep_eq_none hm] at hstep
        exact Or.inl hstep
      | some m =>
        cases hacc : acc with
        | none =>
          rw [hacc, pickStep_eq_fresh hm] at hstep
          obtain ⟨rfl, rfl, rfl⟩ : e.kind = k0 ∧ m = n0 ∧ e.prio = p0 := by
            refine ⟨?_, ?_, ?_⟩ <;> cases hstep <;> rfl
          exact Or.inr ⟨e, List.mem_cons_self _ _, rfl, rfl, hm⟩
        | some x =>
          obtain ⟨k1, n1, p1⟩ := x
          rw [hacc, pickStep_eq_upd hm] at hstep
          by_cases hcond : n1 < m ∨ (n1 = m ∧ p1 < e.prio)
          · rw [if_pos hcond] at hstep
            obtain ⟨rfl, rfl, rfl⟩ : e.kind = k0 ∧ m = n0 ∧ e.prio = p0 := by
              refine ⟨?_, ?_, ?_⟩ <;> cases hstep <;> rfl
            exact Or.inr ⟨e, List.mem_cons_self _ _, rfl, rfl, hm⟩
          · rw [if_neg hcond] at hstep
            exact Or.inl hstep
    · exact Or.inr ⟨e', List.mem_cons_of_mem _ he', h1, h2, h3⟩

/-- Every recognized token comes from one of the declared patterns. -/
theorem bestMatch_mem {s : List Nat} {k : TokenKind} {n : Nat}
    (h : bestMatch s = some (k, n)) :
    ∃ e ∈ entries, e.kind = k ∧ e.re.maxM s = some n := by
  rw [bestMatch] at h
  cases hfold : entries.foldl (pickStep s) none with
  | none => rw [hfold] at h; simp at h
  | some x =>
    obtain ⟨k1, n1, p1⟩ := x
    rw [hfold] at h
    simp at h
    obtain ⟨hk, hn⟩ := h
    rcases pickStep_fold_mem s entries none k1 n1 p1 hfold with hc | ⟨e, he, h1, _, h3⟩
    · cases hc
    · exact ⟨e, he, hk ▸ h1, hn ▸ h3⟩

theorem bestMatch_nil : bestMatch [] = none := by decide

theorem bestMatch_bounds {s : List Nat} {k : TokenKind} {n : Nat}
    (h : bestMatch s = some (k, n)) : 1 ≤ n ∧ n ≤ s.length := by
  obtain ⟨e, _, _, hm⟩ := bestMatch_mem h
  exact maxM_bounds hm

theorem bestMatch_kind {s : List Nat} {k : TokenKind} {n : Nat}
    (h : bestMatch s = some (k, n)) : k ≠ .EOI ∧ k ≠ .Error := by
  obtain ⟨e, he, hk, _⟩ := bestMatch_mem h
  have hall : ∀ e' ∈ entries,
      e'.kind ≠ TokenKind.EOI ∧ e'.kind ≠ TokenKind.Error := by
    decide
  rw [← hk]
  exact hall e he

theorem drop_all_ge {src : List Nat} {pos : Nat} (h : src.length ≤ pos) :
    src.drop pos = [] := by
  apply List.eq_nil_of_length_eq_zero
  simp [List.length_drop]
  omega

theorem nextTokAux_succ_some {src : List Nat} {fuel pos : Nat} {eoi : Bool}
    {k : TokenKind} {n : Nat} (hbm : bestMatch (src.drop pos) = some (k, n)) :
    nextTokAux src (fuel + 1) pos eoi =
      if k = .Whitespace then nextTokAux src fuel (pos + n) eoi
      else (some (.ok ⟨k, ⟨pos, pos + n⟩⟩), ⟨pos + n, eoi⟩) := by
  rw [nextTokAux, hbm]

theorem nextTokAux_succ_none {src : List Nat} {fuel pos : Nat} {eoi : Bool}
    (hbm : bestMatch (src.drop pos) = none) :
    nextTokAux src (fuel + 1) pos eoi =
      if pos < src.length then
        (some (.error ⟨.SyntaxException "unable to recognize the rest tokens",
                       some ⟨pos, src.length⟩⟩),
         ⟨src.length, eoi⟩)
      else if eoi = true then (none, ⟨pos, eoi⟩)
      else (some (.ok (Token.newEoi src.length)), ⟨pos, true⟩) := by
  rw [nextTokAux, hbm]

/-- Case analysis of one `Tokenizer::next` call: it yields a real token and
advances past it, or an error spanning from the failed position to the end,
or the one-shot EOI, or `None` once EOI was already emitted. -/
theorem nextTokAux_cases (src : List Nat) :
    ∀ (fuel pos : Nat) (eoi : Bool),
    src.length - pos + 1 ≤ fuel → pos ≤ src.length →
    (∃ k p q, nextTokAux src fuel pos eoi = (some (.ok ⟨k, ⟨p, q⟩⟩), ⟨q, eoi⟩) ∧
      k ≠ .Whitespace ∧ k ≠ .EOI ∧ k ≠ .Error ∧
      pos ≤ p ∧ p < q ∧ q ≤ src.length ∧
      bestMatch (src.drop p) = some (k, q - p)) ∨
    (∃ p, pos ≤ p ∧ p < src.length ∧ bestMatch (src.drop p) = none ∧
      nextTokAux src fuel pos eoi =
        (some (.error ⟨.SyntaxException "unable to recognize the rest tokens",
                       some ⟨p, src.length⟩⟩),
         ⟨src.length, eoi⟩)) ∨
    (eoi = false ∧
      nextTokAux src fuel pos eoi =
        (some (.ok (Token.newEoi src.length)), ⟨src.length, true⟩)) ∨
    (eoi = true ∧ ∃ p, nextTokAux src fuel pos eoi = (none, ⟨p, eoi⟩)) := by
  intro fuel
  induction fuel with
  | zero => intro pos eoi hfuel hpos; omega
  | succ fuel ih =>
    intro pos eoi hfuel hpos
    rw [nextTokAux]
    cases hbm : bestMatch (src.drop pos) with
    | some x =>
      obtain ⟨k, n⟩ := x
      obtain ⟨hn1, hn2⟩ := bestMatch_bounds hbm
      rw [List.length_drop] at hn2
      by_cases hws : k = TokenKind.Whitespace
      · simp only [hws, if_pos rfl]
        have hfuel' : src.length - (pos + n) + 1 ≤ fuel := by omega
        have hpos' : pos + n ≤ src.length := by omega
        rcases ih (pos + n) eoi hfuel' hpos' with
          ⟨k', p, q, heq, h1, h2, h3, h4, h5, h6, h7⟩ | ⟨p, h1, h2, hbp, heq⟩ | h | h
        · exact Or.inl ⟨k', p, q, heq, h1, h2, h3, by omega, h5, h6, h7⟩
        · exact Or.inr (Or.inl ⟨p, by omega, h2, hbp, heq⟩)
        · exact Or.inr (Or.inr (Or.inl h))
        · exact Or.inr (Or.inr (Or.inr h))
      · simp only [if_neg hws]
        obtain ⟨hne, hne'⟩ := bestMatch_kind hbm
        refine Or.inl ⟨k, pos, pos + n, rfl, hws, hne, hne', le_refl pos,
          by omega, by omega, ?_⟩
        have : pos + n - pos = n := by omega
        rw [this]
        exact hbm
    | none =>
      by_cases hlt : pos < src.length
      · rw [if_pos hlt]
        exact Or.inr (Or.inl ⟨pos, le_refl pos, hlt, hbm, rfl⟩)
      · rw [if_neg hlt]
        have hpe : pos = src.length := by omega
        cases eoi with
        | true => simp
        | false => simp [hpe]

theorem nextTok_cases (src : List Nat) (pos : Nat) (eoi : Bool)
    (hpos : pos ≤ src.length) :
    (∃ k p q, nextTok src ⟨pos, eoi⟩ = (some (.ok ⟨k, ⟨p, q⟩⟩), ⟨q, eoi⟩) ∧
      k ≠ .Whitespace ∧ k ≠ .EOI ∧ k ≠ .Error ∧
      pos ≤ p ∧ p < q ∧ q ≤ src.length ∧
      bestMatch (src.drop p) = some (k, q - p)) ∨
    (∃ p, pos ≤ p ∧ p < src.length ∧ bestMatch (src.drop p) = none ∧
      nextTok src ⟨pos, eoi⟩ =
        (some (.error ⟨.SyntaxException "unable to recognize the rest tokens",
                       some ⟨p, src.length⟩⟩),
         ⟨src.length, eoi⟩)) ∨
    (eoi = false ∧
      nextTok src ⟨pos, eoi⟩ =
        (some (.ok (Token.newEoi src.length)), ⟨src.length, true⟩)) ∨
    (eoi = true ∧ ∃ p, nextTok src ⟨pos, eoi⟩ = (none, ⟨p, eoi⟩)) :=
  nextTokAux_cases src (src.length - pos + 1) pos eoi (le_refl _) hpos

/-- Once the EOI token has been emitted the iterator stays exhausted:
`next()` returns `None` and leaves the state unchanged. -/
theorem nextTok_after_eoi (src : List Nat) :
    nextTok src ⟨src.length, true⟩ = (none, ⟨src.length, true⟩) := by
  rw [nextTok]
  simp only [Nat.sub_self]
  rw [nextTokAux, drop_all_ge (le_refl _), bestMatch_nil]
  simp

theorem tokensAux_after_eoi (src : List Nat) {fuel : Nat} (h : 1 ≤ fuel) :
    tokensAux src fuel ⟨src.length, true⟩ = [] := by
  cases fuel with
  | zero => omega
  | succ fuel => rw [tokensAux, nextTok_after_eoi]

/-- Emitted tokens never have the `Whitespace` or `Error` kinds: whitespace
matches are skipped and a failed match is reported as an error value. -/
theorem nextTokAux_ok_kind (src : List Nat) :
    ∀ (fuel pos : Nat) (eoi : Bool) (t : Token) (st' : LexState),
    nextTokAux src fuel pos eoi = (some (.ok t), st') →
    t.kind ≠ .Whitespace ∧ t.kind ≠ .Error := by
  intro fuel
  induction fuel with
  | zero => intro pos eoi t st' h; rw [nextTokAux] at h; simp at h
  | succ fuel ih =>
    intro pos eoi t st' h
    cases hbm : bestMatch (src.drop pos) with
    | some x =>
      obtain ⟨k, n⟩ := x
      rw [nextTokAux_succ_some hbm] at h
      by_cases hws : k = TokenKind.Whitespace
      · rw [if_pos hws] at h
        exact ih _ _ _ _ h
      · rw [if_neg hws] at h
        obtain ⟨rfl, _⟩ : Token.mk k ⟨pos, pos + n⟩ = t ∧ st' = ⟨pos + n, eoi⟩ := by
          refine ⟨?_, ?_⟩ <;> cases h <;> rfl
        exact ⟨hws, (bestMatch_kind hbm).2⟩
    | none =>
      rw [nextTokAux_succ_none hbm] at h
      by_cases hlt : pos < src.length
      · rw [if_pos hlt] at h
        simp at h
      · rw [if_neg hlt] at h
        cases eoi with
        | true => simp at h
        | false =>
          simp at h
          obtain ⟨h1, _⟩ := h
          rw [← h1]
          exact ⟨by simp [Token.newEoi], by simp [Token.newEoi]⟩

/-- No `Whitespace` token ever appears in the stream. -/
theorem tokensAux_no_ws (src : List Nat) :
    ∀ (fuel : Nat) (st : LexState) (t : Token),
    LexItem.ok t ∈ tokensAux src fuel st → t.kind ≠ .Whitespace := by
  intro fuel
  induction fuel with
  | zero => intro st t h; rw [tokensAux] at h; simp at h
  | succ fuel ih =>
    intro st t h
    rw [tokensAux] at h
    cases hnx : nextTok src st with
    | mk item st' =>
      rw [hnx] at h
      cases item with
      | none => simp at h
      | some it =>
        cases it with
        | error e => simp at h
        | ok t0 =>
          simp at h
          rcases h with rfl | h
          · exact (nextTokAux_ok_kind src _ _ _ _ _ hnx).1
          · exact ih st' t h

theorem tokensAux_succ_ok {src : List Nat} {fuel : Nat} {st st' : LexState}
    {t : Token} (h : nextTok src st = (some (.ok t), st')) :
    tokensAux src (fuel + 1) st = .ok t :: tokensAux src fuel st' := by
  rw [tokensAux, h]

theorem tokensAux_succ_err {src : List Nat} {fuel : Nat} {st st' : LexState}
    {e : LexError} (h : nextTok src st = (some (.error e), st')) :
    tokensAux src (fuel + 1) st = [.error e] := by
  rw [tokensAux, h]

theorem tokensAux_succ_stop {src : List Nat} {fuel : Nat} {st st' : LexState}
    (h : nextTok src st = (none, st')) :
    tokensAux src (fuel + 1) st = [] := by
  rw [tokensAux, h]

/-- On an error-free run the stream ends with exactly one EOI token. -/
theorem tokensAux_all_ok (src : List Nat) :
    ∀ (fuel pos : Nat),
    src.length + 2 ≤ fuel + pos → pos ≤ src.length →
    (∀ it ∈ tokensAux src fuel ⟨pos, false⟩, it.isOk = true) →
    ∃ ts, tokensAux src fuel ⟨pos, false⟩ =
        ts ++ [.ok (Token.newEoi src.length)] ∧
      ∀ it ∈ ts, isEOIItem it = false := by
  intro fuel
  induction fuel with
  | zero => intro pos h1 h2 _; omega
  | succ fuel ih =>
    intro pos h1 h2 hok
    rcases nextTok_cases src pos false h2 with
      ⟨k, p, q, heq, hws, heoi, herr, hp1, hp2, hp3, _⟩ |
      ⟨p, _, _, _, heq⟩ | ⟨_, heq⟩ | ⟨hcontra, _⟩
    · rw [tokensAux_succ_ok heq] at hok ⊢
      have hok' : ∀ it ∈ tokensAux src fuel ⟨q, false⟩, it.isOk = true :=
        fun it hit => hok it (List.mem_cons_of_mem _ hit)
      obtain ⟨ts, hts, htsne⟩ := ih q (by omega) hp3 hok'
      refine ⟨.ok ⟨k, ⟨p, q⟩⟩ :: ts, by rw [hts, List.cons_append], ?_⟩
      intro it hit
      rcases List.mem_cons.mp hit with rfl | hit
      · simpa [isEOIItem] using heoi
      · exact htsne it hit
    · rw [tokensAux_succ_err heq] at hok
      have := hok _ (List.mem_singleton_self _)
      simp [LexItem.isOk] at this
    · rw [tokensAux_succ_ok heq]
      rw [tokensAux_after_eoi src (show 1 ≤ fuel by omega)]
      exact ⟨[], rfl, by simp⟩
    · cases hcontra

/-- When a single pattern match covers the whole input, the stream is that
one token followed by EOI. -/
theorem tokenize_full {src : List Nat} {k : TokenKind} (hws : k ≠ .Whitespace)
    (hbm : bestMatch src = some (k, src.length)) :
    tokenize src = [.ok ⟨k, ⟨0, src.length⟩⟩, .ok (Token.newEoi src.length)] := by
  obtain ⟨hlen, _⟩ := bestMatch_bounds hbm
  have h0 : bestMatch (src.drop 0) = some (k, src.length) := by
    rw [List.drop_zero]; exact hbm
  have hstep1 : nextTok src ⟨0, false⟩ =
      (some (.ok ⟨k, ⟨0, src.length⟩⟩), ⟨src.length, false⟩) := by
    rw [nextTok]
    simp only [Nat.sub_zero]
    rw [nextTokAux_succ_some h0, if_neg hws]
    simp
  have hstep2 : nextTok src ⟨src.length, false⟩ =
      (some (.ok (Token.newEoi src.length)), ⟨src.length, true⟩) := by
    rw [nextTok]
    simp only [Nat.sub_self]
    rw [nextTokAux_succ_none (by rw [List.drop_length]; exact bestMatch_nil)]
    simp
  have hfuel : src.length + 2 = src.length + 1 + 1 := rfl
  rw [tokenize, hfuel, tokensAux_succ_ok hstep1, tokensAux_succ_ok hstep2,
    tokensAux_after_eoi src (by omega)]

/-- A pattern that matches the whole (non-empty) input has it as its longest
match. -/
theorem maxM_full {r : RE} {s : List Nat} (hne : s ≠ []) (hm : Matches r s) :
    r.maxM s = some s.length := by
  have h1 : 1 ≤ s.length := by
    cases s with
    | nil => exact absurd rfl hne
    | cons b t => simp
  have hm' : Matches r (s.take s.length) := by
    rw [List.take_length]
    exact hm
  obtain ⟨m, hm1, hm2⟩ := maxM_complete s r s.length h1 (le_refl _) hm'
  have := (maxM_bounds hm1).2
  have heq : m = s.length := by omega
  rw [hm1, heq]

theorem ws_inRanges {b : Nat} (h : isWsB b = true) :
    inRanges [(9, 10), (12, 13), (32, 32)] b = true := by
  simp [isWsB] at h
  simp [inRanges]
  omega

/-- On a non-empty all-whitespace input the whitespace pattern swallows the
whole input. -/
theorem wsRE_maxM {s : List Nat} (hne : s ≠ []) (hws : ∀ b ∈ s, isWsB b = true) :
    wsRE.maxM s = some s.length := by
  have hm : Matches wsRE (s.take s.length) := by
    rw [List.take_length]
    exact matches_plusCls.mpr ⟨hne, by
      rw [List.all_eq_true]
      exact fun b hb => ws_inRanges (hws b hb)⟩
  have hlen : 1 ≤ s.length := by
    cases s with
    | nil => exact absurd rfl hne
    | cons b t => simp
  obtain ⟨m, hm1, hm2⟩ := maxM_complete s wsRE s.length hlen (le_refl _) hm
  have := (maxM_bounds hm1).2
  have : m = s.length := by omega
  rw [hm1, this]

/-- Every non-whitespace pattern is dead after a whitespace first byte. -/
theorem entries_ws_kill : ∀ e ∈ entries,
    e.kind = TokenKind.Whitespace ∨ startKill e.re [9, 10, 12, 13, 32] = true := by
  decide

theorem isWsB_mem {b : Nat} (h : isWsB b = true) : b ∈ [9, 10, 12, 13, 32] := by
  simp [isWsB] at h
  simp
  omega

/-- On a non-empty all-whitespace input the lexer recognizes one whitespace
token covering the whole input. -/
theorem bestMatch_ws {s : List Nat} (hne : s ≠ [])
    (hws : ∀ b ∈ s, isWsB b = true) :
    bestMatch s = some (.Whitespace, s.length) := by
  have hwsm := wsRE_maxM hne hws
  apply bestMatch_spec (p := 1)
  · exact ⟨⟨wsRE, .Whitespace, 1⟩, by decide, rfl, rfl, hwsm⟩
  · intro e he m hm
    rcases entries_ws_kill e he with hk | hkill
    · -- any whitespace-kind entry: the kind escape applies
      by_cases hmn : m < s.length
      · exact Or.inl hmn
      · right
        refine ⟨?_, Or.inr hk⟩
        have := (maxM_bounds hm).2
        omega
    · cases s with
      | nil => exact absurd rfl hne
      | cons b t =>
        have hb : b ∈ [9, 10, 12, 13, 32] :=
          isWsB_mem (hws b (List.mem_cons_self _ _))
        rw [startKill_maxM hkill hb] at hm
        cases hm

/-- On an all-whitespace input the whole input is skipped and `next()`
returns the EOI token directly. -/
theorem nextTok_all_ws {src : List Nat} (hws : ∀ b ∈ src, isWsB b = true) :
    nextTok src ⟨0, false⟩ =
      (some (.ok (Token.newEoi src.length)), ⟨src.length, true⟩) := by
  rcases nextTok_cases src 0 false (by omega) with
    ⟨k, p, q, heq, hwsk, _, _, _, hp2, hp3, hbm⟩ |
    ⟨p, _, hp2, hbm, heq⟩ | ⟨_, heq⟩ | ⟨hcontra, _⟩
  · -- impossible: any position inside the input still sees only whitespace
    exfalso
    have hne : src.drop p ≠ [] := by
      intro hnil
      have := congrArg List.length hnil
      simp [List.length_drop] at this
      omega
    have hall : ∀ b ∈ src.drop p, isWsB b = true :=
      fun b hb => hws b (List.mem_of_mem_drop hb)
    rw [bestMatch_ws hne hall] at hbm
    simp only [Option.some.injEq, Prod.mk.injEq] at hbm
    exact hwsk hbm.1.symm
  · exfalso
    have hne : src.drop p ≠ [] := by
      intro hnil
      have := congrArg List.length hnil
      simp [List.length_drop] at this
      omega
    have hall : ∀ b ∈ src.drop p, isWsB b = true :=
      fun b hb => hws b (List.mem_of_mem_drop hb)
    rw [bestMatch_ws hne hall] at hbm
    cases hbm
  · exact heq
  · cases hcontra

theorem identStart_inRanges {b : Nat} (h : isIdentStart b = true) :
    inRanges [(65, 90), (95, 95), (97, 122)] b = true := by
  simp [isIdentStart] at h
  simp [inRanges]
  omega

theorem identCont_inRanges {b : Nat} (h : isIdentCont b = true) :
    inRanges [(36, 36), (48, 57), (65, 90), (95, 95), (97, 122)] b = true := by
  simp [isIdentCont] at h
  simp [inRanges]
  omega

theorem identStartBytes_mem {b : Nat} (h : isIdentStart b = true) :
    b ∈ identStartBytes := by
  rw [identStartBytes, List.mem_filter]
  refine ⟨List.mem_range.mpr ?_, h⟩
  simp [isIdentStart] at h
  omega

/-- An identifier-shaped input is fully matched by the identifier pattern. -/
theorem identRE_maxM {s : List Nat} (h : identShaped s = true) :
    identRE.maxM s = some s.length := by
  cases s with
  | nil => simp [identShaped] at h
  | cons b t =>
    simp [identShaped] at h
    obtain ⟨hb, ht⟩ := h
    have h1 : Matches (.cls [(65, 90), (95, 95), (97, 122)]) [b] :=
      .cls (identStart_inRanges hb)
    have h2 : Matches
        (.star (.cls [(36, 36), (48, 57), (65, 90), (95, 95), (97, 122)])) t :=
      matches_starCls.mpr (by
        rw [List.all_eq_true]
        intro x hx
        exact identCont_inRanges (ht x hx))
    have hm : Matches identRE ((b :: t).take (b :: t).length) := by
      rw [List.take_length]
      simpa [identRE] using Matches.seqm h1 h2
    obtain ⟨m, hm1, hm2⟩ := maxM_complete _ identRE _ (by simp) (le_refl _) hm
    have := (maxM_bounds hm1).2
    have heq : m = (b :: t).length := by omega
    rw [hm1, heq]

/-- A keyword pattern only ever matches exactly its own length, and the
matched prefix is a case variant of the keyword. -/
theorem litCIRE_maxM_eq {w s : List Nat} {m : Nat}
    (h : (litCIRE w).maxM s = some m) :
    m = w.length ∧ caseVariantB (s.take m) w = true := by
  obtain ⟨h1, h2, h3⟩ := maxM_sound s _ m h
  have hcv := matches_litCIRE.mp h3
  have hl := caseVariantB_length hcv
  rw [List.length_take, Nat.min_eq_left h2] at hl
  exact ⟨hl, hcv⟩

/-- Every lexer pattern is the identifier, a keyword, or dead after any
identifier-start byte. -/
theorem entries_ident_split : ∀ e ∈ entries,
    e = ⟨identRE, .Ident, 1⟩ ∨
    (∃ p ∈ keywordTable, e = ⟨litCIRE p.1, p.2, 2 * p.1.length⟩) ∨
    startKill e.re identStartBytes = true := by
  decide

theorem keywordTable_upper :
    ∀ p ∈ keywordTable, p.1 ≠ [] ∧ ∀ b ∈ p.1, 65 ≤ b ∧ b ≤ 90 := by
  decide

/-- Two different keywords have different lower-case images. -/
theorem keywordTable_lower_inj :
    ∀ p ∈ keywordTable, ∀ q ∈ keywordTable,
      p.1.map lowerB = q.1.map lowerB → p = q := by
  decide

theorem caseVariant_all_cont : ∀ {t ws : List Nat},
    caseVariantB t ws = true → (∀ b ∈ ws, 65 ≤ b ∧ b ≤ 90) →
    t.all isIdentCont = true := by
  intro t
  induction t with
  | nil => intro ws _ _; rfl
  | cons b t ih =>
    intro ws h hup
    cases ws with
    | nil => simp [caseVariantB] at h
    | cons c cs =>
      simp [caseVariantB] at h
      obtain ⟨hb, hrest⟩ := h
      have hc := hup c (List.mem_cons_self _ _)
      simp [List.all_cons]
      constructor
      · simp [isIdentCont]; omega
      · intro x hx
        have := ih hrest (fun b hb => hup b (List.mem_cons_of_mem _ hb))
        rw [List.all_eq_true] at this
        exact this x hx

/-- A case variant of an upper-case keyword is identifier-shaped. -/
theorem caseVariant_shape {s w : List Nat} (h : caseVariantB s w = true)
    (hup : ∀ b ∈ w, 65 ≤ b ∧ b ≤ 90) (hne : w ≠ []) :
    identShaped s = true := by
  cases s with
  | nil =>
    cases w with
    | nil => exact absurd rfl hne
    | cons c cs => simp [caseVariantB] at h
  | cons b t =>
    cases w with
    | nil => simp [caseVariantB] at h
    | cons c cs =>
      simp [caseVariantB] at h
      obtain ⟨hb, hrest⟩ := h
      have hc := hup c (List.mem_cons_self _ _)
      simp [identShaped]
      constructor
      · simp [isIdentStart]; omega
      · intro x hx
        have := caseVariant_all_cont hrest
          (fun b hb => hup b (List.mem_cons_of_mem _ hb))
        rw [List.all_eq_true] at this
        exact this x hx

theorem caseVariant_lower : ∀ {s w : List Nat}, caseVariantB s w = true →
    (∀ b ∈ w, 65 ≤ b ∧ b ≤ 90) → s.map lowerB = w.map lowerB := by
  intro s
  induction s with
  | nil => intro w h _; cases w with
    | nil => rfl
    | cons c cs => simp [caseVariantB] at h
  | cons b t ih =>
    intro w h hup
    cases w with
    | nil => simp [caseVariantB] at h
    | cons c cs =>
      simp [caseVariantB] at h
      obtain ⟨hb, hrest⟩ := h
      have hc := hup c (List.mem_cons_self _ _)
      simp [List.map_cons]
      constructor
      · simp [lowerB]
        rcases hb with rfl | rfl
        · rfl
        · rw [if_neg (by omega), if_pos (by omega)]
      · exact ih hrest (fun b hb => hup b (List.mem_cons_of_mem _ hb))

/-- The first byte of a case variant of a keyword is an identifier start. -/
theorem caseVariant_head {b : Nat} {t w : List Nat}
    (h : caseVariantB (b :: t) w = true)
    (hup : ∀ x ∈ w, 65 ≤ x ∧ x ≤ 90) : isIdentStart b = true := by
  cases w with
  | nil => simp [caseVariantB] at h
  | cons c cs =>
    simp [caseVariantB] at h
    have hc := hup c (List.mem_cons_self _ _)
    simp [isIdentStart]
    omega

/-- Claim C1: for every input string containing a byte at which no token can
be recognized, the tokenizer's `next()` at that point returns an error of
kind `SyntaxException` whose span begins at the byte offset of the
unrecognized byte and extends to the end of the input
(span = bad_offset..source.len()). -/
theorem c1_unrecognized_byte_error (src : List Nat) (pos : Nat) (eoi : Bool)
    (hpos : pos < src.length) (hbad : bestMatch (src.drop pos) = none) :
    (nextTok src ⟨pos, eoi⟩).1 =
      some (.error ⟨.SyntaxException "unable to recognize the rest tokens",
                    some ⟨pos, src.length⟩⟩) := by
  rw [nextTok, nextTokAux_succ_none hbad, if_pos hpos]

theorem c1_witness :
    (0 < [33].length ∧ bestMatch (List.drop 0 [33]) = none) ∧
    (nextTok [33] ⟨0, false⟩).1 =
      some (.error ⟨.SyntaxException "unable to recognize the rest tokens",
                    some ⟨0, 1⟩⟩) :=
  ⟨⟨by decide, by decide⟩,
    c1_unrecognized_byte_error [33] 0 false (by decide) (by decide)⟩

/-- Claim C2: for every input string in which every token is recognized,
iterating the tokenizer to exhaustion yields exactly one EOI token, it is
the final item, its span is the empty range `source.len()..source.len()`,
and every call to `next()` after it returns `None` (the state is also left
unchanged, so all later calls return `None` as well). -/
theorem c2_eoi_once (src : List Nat)
    (hok : ∀ it ∈ tokenize src, it.isOk = true) :
    (∃ ts, tokenize src = ts ++ [.ok ⟨.EOI, ⟨src.length, src.length⟩⟩] ∧
      ∀ it ∈ ts, isEOIItem it = false) ∧
    nextTok src ⟨src.length, true⟩ = (none, ⟨src.length, true⟩) :=
  ⟨tokensAux_all_ok src (src.length + 2) 0 (by omega) (by omega) hok,
    nextTok_after_eoi src⟩

theorem c2_witness :
    (∀ it ∈ tokenize [36], LexItem.isOk it = true) ∧
    ((∃ ts, tokenize [36] = ts ++ [.ok ⟨.EOI, ⟨1, 1⟩⟩] ∧
        ∀ it ∈ ts, isEOIItem it = false) ∧
      nextTok [36] ⟨1, true⟩ = (none, ⟨1, true⟩)) :=
  ⟨by decide, c2_eoi_once [36] (by decide)⟩

/-- Claim C4: every operator in the punctuation list lexes as a single token
of its designated kind (followed only by EOI); in particular each
multi-character operator (`==`, `<>`, `!=`, `<=`, `>=`, `<=>`, `||`, `..`,
`::`) produces one token by maximal munch (for example `<=>` is one
`Spaceship` token and `..` one `DoublePeriod` token).  `<>` and `!=` both
map to the single kind `NotEq`, exactly as in the source. -/
theorem c4_punctuation :
    punctTable.all (fun p =>
      decide (tokenize p.1 =
        [.ok ⟨p.2, ⟨0, p.1.length⟩⟩,
         .ok ⟨.EOI, ⟨p.1.length, p.1.length⟩⟩])) = true := by
  decide

/-- Claim C9: `TokenKind::is_keyword` returns true exactly for the fifteen
variants AND, OR, TRUE, FALSE, NULL, NOT, IN, NIN, SUBSETOF, CONTAINS,
SIZE, EMPTY, Error, Whitespace and Placeholder — in particular for the
non-keyword kinds Error, Whitespace and Placeholder — and
`TokenKind::is_reserved_ident` returns true exactly for AND and OR. -/
theorem c9_keyword_predicates :
    (∀ k : TokenKind, k.is_keyword = true ↔
      (k = .AND ∨ k = .OR ∨ k = .TRUE ∨ k = .FALSE ∨ k = .NULL ∨ k = .NOT ∨
       k = .IN ∨ k = .NIN ∨ k = .SUBSETOF ∨ k = .CONTAINS ∨ k = .SIZE ∨
       k = .EMPTY ∨ k = .Error ∨ k = .Whitespace ∨ k = .Placeholder)) ∧
    (∀ k : TokenKind, k.is_reserved_ident = true ↔ (k = .AND ∨ k = .OR)) := by
  constructor
  · intro k; cases k <;> simp [TokenKind.is_keyword]
  · intro k; cases k <;> simp [TokenKind.is_reserved_ident]

theorem digit_inRanges {b : Nat} (h : isDigit b = true) :
    inRanges [(48, 57)] b = true := by
  simp [isDigit] at h
  simp [inRanges]
  omega

theorem numStartBytes_mem {b : Nat} (h : isDigit b = true ∨ b = 45 ∨ b = 46) :
    b ∈ numStartBytes := by
  rw [numStartBytes, List.mem_filter]
  have hb : b < 256 := by
    rcases h with h | h | h
    · simp [isDigit] at h; omega
    · omega
    · omega
  refine ⟨List.mem_range.mpr hb, ?_⟩
  simp [isDigit] at h ⊢
  omega

theorem digits_star {t : List Nat} (h : t.all isDigit = true) :
    Matches (.star (.cls [(48, 57)])) t := by
  apply matches_starCls.mpr
  rw [List.all_eq_true] at h ⊢
  exact fun b hb => digit_inRanges (h b hb)

theorem digits_plus {t : List Nat} (hne : t ≠ []) (h : t.all isDigit = true) :
    Matches (plusCls [(48, 57)]) t :=
  matches_plusCls.mpr ⟨hne, by
    rw [List.all_eq_true] at h ⊢
    exact fun b hb => digit_inRanges (h b hb)⟩

/-- An integer-shaped input is matched by the integer pattern. -/
theorem intShaped_matches {s : List Nat} (h : intShaped s = true) :
    Matches intRE s := by
  cases s with
  | nil => simp [intShaped] at h
  | cons b t =>
    rw [intRE]
    by_cases hb : b = 45
    · subst hb
      simp [intShaped] at h
      have h1 : Matches (optRE (.cls [(45, 45)])) [45] :=
        .altL (.cls (by simp [inRanges]))
      have h2 : Matches (plusCls [(48, 57)]) t := by
        apply digits_plus
        · intro hnil
          rw [hnil] at h
          simp at h
        · rw [List.all_eq_true]
          exact h.2
      simpa using Matches.seqm h1 h2
    · simp [intShaped, hb] at h
      have h1 : Matches (optRE (.cls [(45, 45)])) [] := .altR .eps
      have h2 : Matches (plusCls [(48, 57)]) (b :: t) := by
        apply digits_plus (by simp)
        simp [List.all_cons, h.1]
        exact h.2
      simpa using Matches.seqm h1 h2

/-- Any string the integer pattern matches consists of `-` and digits. -/
theorem intRE_all {t : List Nat} (h : Matches intRE t) :
    ∀ b ∈ t, b = 45 ∨ isDigit b = true := by
  rw [intRE, matches_seq_iff] at h
  obtain ⟨t1, t2, rfl, h1, h2⟩ := h
  obtain ⟨_, hall⟩ := matches_plusCls.mp h2
  rw [matches_optRE] at h1
  intro b hb
  rcases List.mem_append.mp hb with hb1 | hb2
  · rcases h1 with rfl | h1
    · simp at hb1
    · obtain ⟨x, rfl, hx⟩ := matches_cls_iff.mp h1
      simp [inRanges] at hx
      simp at hb1
      left
      omega
  · right
    rw [List.all_eq_true] at hall
    have := hall b hb2
    simp [inRanges] at this
    simp [isDigit]
    omega

theorem expShaped_matches {ex : List Nat} (h : expShaped ex) :
    Matches expRE ex := by
  obtain ⟨c, sg, d, rfl, hc, hsg, hdne, hd⟩ := h
  rw [expRE]
  have h1 : Matches (.cls [(69, 69), (101, 101)]) [c] := by
    refine .cls ?_
    simp [inRanges]
    omega
  have h2 : Matches (optRE (.cls [(43, 43), (45, 45)])) sg := by
    rcases hsg with rfl | rfl | rfl
    · exact .altR .eps
    · exact .altL (.cls (by simp [inRanges]))
    · exact .altL (.cls (by simp [inRanges]))
  have h3 : Matches (plusCls [(48, 57)]) d := digits_plus hdne hd
  simpa using Matches.seqm h1 (Matches.seqm h2 h3)

/-- Any string the exponent pattern matches starts with `e` or `E`. -/
theorem expRE_head {t : List Nat} (h : Matches expRE t) :
    ∃ c u, t = c :: u ∧ (c = 69 ∨ c = 101) := by
  rw [expRE, matches_seq_iff] at h
  obtain ⟨t1, t2, heq, h1, h2⟩ := h
  obtain ⟨c, rfl, hc⟩ := matches_cls_iff.mp h1
  simp [inRanges] at hc
  exact ⟨c, t2, by simpa using heq, by omega⟩

/-- Any string the exponent-form float pattern matches holds an `e`/`E`. -/
theorem floatA_exp_byte {t : List Nat} (h : Matches floatARE t) :
    ∃ b ∈ t, b = 69 ∨ b = 101 := by
  rw [floatARE, matches_seq_iff] at h
  obtain ⟨t1, t2, rfl, h1, h2⟩ := h
  obtain ⟨c, u, rfl, hc⟩ := expRE_head h2
  exact ⟨c, by simp, hc⟩

/-- Any string the dotted float pattern matches holds a dot. -/
theorem floatB_dot_byte {t : List Nat} (h : Matches floatBRE t) : 46 ∈ t := by
  rw [floatBRE, matches_alt_iff] at h
  rcases h with h | h <;>
  { rw [matches_seq_iff] at h
    obtain ⟨t1, t2, rfl, h1, h2⟩ := h
    rw [matches_seq_iff] at h2
    obtain ⟨t3, t4, rfl, h3, h4⟩ := h2
    obtain ⟨c, rfl, hc⟩ := matches_cls_iff.mp h3
    simp [inRanges] at hc
    have : c = 46 := by omega
    subst this
    simp }

/-- A dotted-shape input is matched by the dotted float pattern. -/
theorem floatB_matches {pre post ex : List Nat}
    (hpre : pre.all isDigit = true) (hpost : post.all isDigit = true)
    (hor : pre ≠ [] ∨ post ≠ []) (hex : ex = [] ∨ expShaped ex) :
    Matches floatBRE (pre ++ 46 :: (post ++ ex)) := by
  have hdot : Matches (RE.cls [(46, 46)]) [46] := .cls (by simp [inRanges])
  have hexm : Matches (optRE expRE) ex := by
    rcases hex with rfl | hex
    · exact .altR .eps
    · exact .altL (expShaped_matches hex)
  rw [floatBRE]
  by_cases hp : post = []
  · subst hp
    rcases hor with hpre1 | hc
    · apply Matches.altR
      have h1 : Matches (plusCls [(48, 57)]) pre := digits_plus hpre1 hpre
      have h2 : Matches (.star (.cls [(48, 57)])) ([] : List Nat) := .starNil
      simpa using Matches.seqm h1
        (Matches.seqm hdot (Matches.seqm h2 hexm))
    · exact absurd rfl hc
  · apply Matches.altL
    have h1 : Matches (.star (.cls [(48, 57)])) pre := digits_star hpre
    have h2 : Matches (plusCls [(48, 57)]) post := digits_plus hp hpost
    simpa using Matches.seqm h1
      (Matches.seqm hdot (Matches.seqm h2 hexm))

/-- An exponent-shape input is matched by the exponent float pattern. -/
theorem floatA_matches {d ex : List Nat} (hdne : d ≠ [])
    (hd : d.all isDigit = true) (hex : expShaped ex) :
    Matches floatARE (d ++ ex) := by
  rw [floatARE]
  exact Matches.seqm (digits_plus hdne hd) (expShaped_matches hex)

theorem take_cons_head : ∀ {s u : List Nat} {m x : Nat},
    s.take m = x :: u → ∃ t, s = x :: t ∧ t.take (m - 1) = u := by
  intro s u m x h
  cases s with
  | nil => simp at h
  | cons b t =>
    cases m with
    | zero => simp at h
    | succ k =>
      simp at h
      exact ⟨t, by rw [h.1], by simpa using h.2⟩

/-- Every lexer pattern is a numeric pattern, `-`, `.`, `..`, or dead after
a digit, `-` or `.` first byte. -/
theorem entries_num_split : ∀ e ∈ entries,
    e = ⟨intRE, .LiteralInteger, 1⟩ ∨ e = ⟨floatARE, .LiteralFloat, 3⟩ ∨
    e = ⟨floatBRE, .LiteralFloat, 2⟩ ∨ e = ⟨litRE [45], .Minus, 2⟩ ∨
    e = ⟨litRE [46], .Period, 2⟩ ∨ e = ⟨litRE [46, 46], .DoublePeriod, 4⟩ ∨
    startKill e.re numStartBytes = true := by
  decide

/-- An integer-shaped input lexes as one `LiteralInteger` match covering the
whole input. -/
theorem bestMatch_int {s : List Nat} (h : intShaped s = true) :
    bestMatch s = some (.LiteralInteger, s.length) := by
  have hmm := intShaped_matches h
  have hne : s ≠ [] := by
    cases s with
    | nil => simp [intShaped] at h
    | cons b t => simp
  have hfull : intRE.maxM s = some s.length := maxM_full hne hmm
  have hall : ∀ b ∈ s, b = 45 ∨ isDigit b = true := intRE_all hmm
  obtain ⟨b0, t0, rfl⟩ : ∃ b0 t0, s = b0 :: t0 := by
    cases s with
    | nil => exact absurd rfl hne
    | cons b t => exact ⟨b, t, rfl⟩
  have hhead : b0 = 45 ∨ isDigit b0 = true := hall b0 (List.mem_cons_self _ _)
  apply bestMatch_spec (p := 1)
  · exact ⟨⟨intRE, .LiteralInteger, 1⟩, by decide, rfl, rfl, hfull⟩
  · intro e he m hm
    have hbound := (maxM_bounds hm).2
    have hsound := maxM_sound _ _ _ hm
    rcases entries_num_split e he with rfl | rfl | rfl | rfl | rfl | rfl | hkill
    · by_cases hmn : m < (b0 :: t0).length
      · exact Or.inl hmn
      · exact Or.inr ⟨by omega, Or.inr rfl⟩
    · exfalso
      obtain ⟨c, hc1, hc2⟩ := floatA_exp_byte hsound.2.2
      have := hall c (List.mem_of_mem_take hc1)
      rcases this with h1 | h1 <;> rcases hc2 with rfl | rfl <;>
        simp [isDigit] at h1
    · exfalso
      have hdot := floatB_dot_byte hsound.2.2
      have := hall 46 (List.mem_of_mem_take hdot)
      rcases this with h1 | h1
      · omega
      · simp [isDigit] at h1
    · -- Minus matches only the leading byte, and a digit must follow it
      have htake := matches_litRE.mp hsound.2.2
      obtain ⟨t, hteq, _⟩ := take_cons_head htake
      obtain ⟨hb45, hts⟩ := List.cons.inj hteq
      rw [hb45] at h
      simp [intShaped] at h
      have ht0 : t0 ≠ [] := by
        intro hnil
        rw [hnil] at h
        simp at h
      have hlen2 : 2 ≤ (b0 :: t0).length := by
        cases t0 with
        | nil => exact absurd rfl ht0
        | cons x xs => simp
      have hlentake := congrArg List.length htake
      rw [List.length_take, Nat.min_eq_left hbound] at hlentake
      simp at hlentake
      left
      omega
    · exfalso
      have htake := matches_litRE.mp hsound.2.2
      obtain ⟨t, hteq, _⟩ := take_cons_head htake
      obtain ⟨hb46, _⟩ := List.cons.inj hteq
      rcases hhead with h1 | h1
      · omega
      · rw [hb46] at h1
        simp [isDigit] at h1
    · exfalso
      have htake := matches_litRE.mp hsound.2.2
      obtain ⟨t, hteq, _⟩ := take_cons_head htake
      obtain ⟨hb46, _⟩ := List.cons.inj hteq
      rcases hhead with h1 | h1
      · omega
      · rw [hb46] at h1
        simp [isDigit] at h1
    · exfalso
      have hb : b0 ∈ numStartBytes := numStartBytes_mem (by tauto)
      rw [startKill_maxM hkill hb] at hm
      cases hm

/-- A float-shaped input lexes as one `LiteralFloat` match covering the
whole input. -/
theorem bestMatch_float {s : List Nat} (h : floatShaped s) :
    bestMatch s = some (.LiteralFloat, s.length) := by
  rcases h with ⟨pre, post, ex, rfl, hpre, hpost, hor, hex⟩ |
    ⟨d, ex, rfl, hdne, hd, hex⟩
  · -- dotted shape, covered by the second regex on LiteralFloat
    have hne : pre ++ 46 :: (post ++ ex) ≠ [] := by simp
    have hfull : floatBRE.maxM (pre ++ 46 :: (post ++ ex)) =
        some (pre ++ 46 :: (post ++ ex)).length :=
      maxM_full hne (floatB_matches hpre hpost hor hex)
    have hdotmem : 46 ∈ pre ++ 46 :: (post ++ ex) := by simp
    -- the head byte: a digit when pre is non-empty, otherwise the dot
    obtain ⟨b0, t0, hs0, hh⟩ : ∃ b0 t0,
        pre ++ 46 :: (post ++ ex) = b0 :: t0 ∧
        ((isDigit b0 = true ∧ b0 ≠ 46) ∨ (b0 = 46 ∧ pre = [])) := by
      cases pre with
      | nil => exact ⟨46, post ++ ex, rfl, Or.inr ⟨rfl, rfl⟩⟩
      | cons p ps =>
        have hp : isDigit p = true := by
          rw [List.all_eq_true] at hpre
          exact hpre p (List.mem_cons_self _ _)
        refine ⟨p, ps ++ 46 :: (post ++ ex), rfl, Or.inl ⟨hp, ?_⟩⟩
        simp [isDigit] at hp
        omega
    apply bestMatch_spec (p := 2)
    · exact ⟨⟨floatBRE, .LiteralFloat, 2⟩, by decide, rfl, rfl, hfull⟩
    · intro e he m hm
      have hbound := (maxM_bounds hm).2
      have hsound := maxM_sound _ _ _ hm
      rcases entries_num_split e he with rfl | rfl | rfl | rfl | rfl | rfl | hkill
      · -- LiteralInteger: shorter, because the full string holds a dot
        by_cases hmn : m < (pre ++ 46 :: (post ++ ex)).length
        · exact Or.inl hmn
        · exfalso
          have hms : m = (pre ++ 46 :: (post ++ ex)).length := by omega
          have hta : (pre ++ 46 :: (post ++ ex)).take m =
              pre ++ 46 :: (post ++ ex) := by
            rw [hms, List.take_length]
          have := intRE_all hsound.2.2 46 (by rw [hta]; exact hdotmem)
          rcases this with h1 | h1
          · omega
          · simp [isDigit] at h1
      · by_cases hmn : m < (pre ++ 46 :: (post ++ ex)).length
        · exact Or.inl hmn
        · exact Or.inr ⟨by omega, Or.inr rfl⟩
      · by_cases hmn : m < (pre ++ 46 :: (post ++ ex)).length
        · exact Or.inl hmn
        · exact Or.inr ⟨by omega, Or.inr rfl⟩
      · -- Minus: the head byte is a digit or the dot, never '-'
        exfalso
        have htake := matches_litRE.mp hsound.2.2
        obtain ⟨t, hteq, _⟩ := take_cons_head htake
        have hb45 : b0 = 45 := by
          rw [hs0] at hteq
          exact (List.cons.inj hteq).1
        rcases hh with ⟨h1, _⟩ | ⟨h1, _⟩
        · rw [hb45] at h1
          simp [isDigit] at h1
        · omega
      · -- Period: matches one byte; when it applies the input starts with
        -- the dot and a digit follows, so the match is shorter
        have htake := matches_litRE.mp hsound.2.2
        obtain ⟨t, hteq, _⟩ := take_cons_head htake
        have hb46 : b0 = 46 := by
          rw [hs0] at hteq
          exact (List.cons.inj hteq).1
        rcases hh with ⟨h1, h2⟩ | ⟨h1, hpre0⟩
        · exact absurd hb46 h2
        · have hpost0 : post ≠ [] := by
            rcases hor with hc | hc
            · exact absurd hpre0 hc
            · exact hc
          have hlen2 : 2 ≤ (pre ++ 46 :: (post ++ ex)).length := by
            cases post with
            | nil => exact absurd rfl hpost0
            | cons q qs => simp; omega
          have hlentake := congrArg List.length htake
          rw [List.length_take, Nat.min_eq_left hbound] at hlentake
          simp at hlentake
          left
          omega
      · -- DoublePeriod: would need the second byte to be a dot as well
        exfalso
        have htake := matches_litRE.mp hsound.2.2
        obtain ⟨t, hteq, htail⟩ := take_cons_head htake
        rcases hh with ⟨h1, h2⟩ | ⟨h1, hpre0⟩
        · apply h2
          rw [hs0] at hteq
          exact (List.cons.inj hteq).1
        · have hpost0 : post ≠ [] := by
            rcases hor with hc | hc
            · exact absurd hpre0 hc
            · exact hc
          obtain ⟨q, qs, hq⟩ : ∃ q qs, post = q :: qs := by
            cases post with
            | nil => exact absurd rfl hpost0
            | cons q qs => exact ⟨q, qs, rfl⟩
          have hteq' : (46 : Nat) :: (post ++ ex) = 46 :: t := by
            rw [← hteq, hpre0]
            simp
          have htpost : t = post ++ ex := ((List.cons.inj hteq').2).symm
          obtain ⟨u, hueq, _⟩ := take_cons_head htail
          rw [htpost, hq] at hueq
          have hq46 : q = 46 := (List.cons.inj hueq).1
          have hqd : isDigit q = true := by
            rw [List.all_eq_true] at hpost
            exact hpost q (by rw [hq]; exact List.mem_cons_self _ _)
          rw [hq46] at hqd
          simp [isDigit] at hqd
      · exfalso
        have hb : b0 ∈ numStartBytes := numStartBytes_mem (by tauto)
        rw [hs0, startKill_maxM hkill hb] at hm
        cases hm
  · -- exponent shape, covered by the first regex on LiteralFloat
    have hne : d ++ ex ≠ [] := by
      cases d with
      | nil => exact absurd rfl hdne
      | cons x xs => simp
    have hfull : floatARE.maxM (d ++ ex) = some (d ++ ex).length :=
      maxM_full hne (floatA_matches hdne hd hex)
    obtain ⟨c, sg, dd, hexeq, hc, _, _, _⟩ := hex
    have hcmem : c ∈ d ++ ex := by
      rw [hexeq]
      simp
    obtain ⟨b0, t0, hs0, hb0d⟩ : ∃ b0 t0, d ++ ex = b0 :: t0 ∧
        isDigit b0 = true := by
      cases d with
      | nil => exact absurd rfl hdne
      | cons p ps =>
        refine ⟨p, ps ++ ex, rfl, ?_⟩
        rw [List.all_eq_true] at hd
        exact hd p (List.mem_cons_self _ _)
    apply bestMatch_spec (p := 3)
    · exact ⟨⟨floatARE, .LiteralFloat, 3⟩, by decide, rfl, rfl, hfull⟩
    · intro e he m hm
      have hbound := (maxM_bounds hm).2
      have hsound := maxM_sound _ _ _ hm
      rcases entries_num_split e he with rfl | rfl | rfl | rfl | rfl | rfl | hkill
      · by_cases hmn : m < (d ++ ex).length
        · exact Or.inl hmn
        · exfalso
          have hms : m = (d ++ ex).length := by omega
          have hta : (d ++ ex).take m = d ++ ex := by
            rw [hms, List.take_length]
          have := intRE_all hsound.2.2 c (by rw [hta]; exact hcmem)
          rcases this with h1 | h1 <;> rcases hc with rfl | rfl <;>
            simp [isDigit] at h1
      · by_cases hmn : m < (d ++ ex).length
        · exact Or.inl hmn
        · exact Or.inr ⟨by omega, Or.inr rfl⟩
      · by_cases hmn : m < (d ++ ex).length
        · exact Or.inl hmn
        · exact Or.inr ⟨by omega, Or.inr rfl⟩
      · exfalso
        have htake := matches_litRE.mp hsound.2.2
        rw [hs0] at htake
        obtain ⟨t, hteq, _⟩ := take_cons_head htake
        obtain ⟨hb45, _⟩ := List.cons.inj hteq
        rw [hb45] at hb0d
        simp [isDigit] at hb0d
      · exfalso
        have htake := matches_litRE.mp hsound.2.2
        rw [hs0] at htake
        obtain ⟨t, hteq, _⟩ := take_cons_head htake
        obtain ⟨hb46, _⟩ := List.cons.inj hteq
        rw [hb46] at hb0d
        simp [isDigit] at hb0d
      · exfalso
        have htake := matches_litRE.mp hsound.2.2
        rw [hs0] at htake
        obtain ⟨t, hteq, _⟩ := take_cons_head htake
        obtain ⟨hb46, _⟩ := List.cons.inj hteq
        rw [hb46] at hb0d
        simp [isDigit] at hb0d
      · exfalso
        have hb : b0 ∈ numStartBytes := numStartBytes_mem (Or.inl hb0d)
        rw [hs0, startKill_maxM hkill hb] at hm
        cases hm

theorem quotedBody_matches (q : Nat) (rs : List (Nat × Nat))
    (hq : ∀ b, b ≠ q → b ≠ 92 → b < 256 → inRanges rs b = true) :
    ∀ (n : Nat) (mid : List Nat), mid.length ≤ n →
    quotedBody q mid = true → Matches (.star (quoteUnit q rs)) mid := by
  intro n
  induction n with
  | zero =>
    intro mid hlen h
    cases mid with
    | nil => exact .starNil
    | cons b rest => simp at hlen
  | succ n ih =>
    intro mid hlen h
    cases mid with
    | nil => exact .starNil
    | cons b rest =>
      rw [quotedBody.eq_def] at h
      simp only at h
      by_cases hbq : b = q
      · rw [if_pos hbq] at h
        cases rest with
        | nil => simp at h
        | cons b2 rest2 =>
          simp only [Bool.and_eq_true, decide_eq_true_eq] at h
          obtain ⟨hb2, hrest⟩ := h
          have hu : Matches (quoteUnit q rs) [b, b2] := by
            rw [quoteUnit]
            refine .altR (.altR ?_)
            have h1 : Matches (RE.cls [(q, q)]) [b] :=
              .cls (by simp [inRanges]; omega)
            have h2 : Matches (RE.cls [(q, q)]) [b2] :=
              .cls (by simp [inRanges]; omega)
            simpa using Matches.seqm h1 h2
          have hih := ih rest2 (by simp at hlen; omega) hrest
          simpa using Matches.starCons hu hih
      · rw [if_neg hbq] at h
        by_cases hb92 : b = 92
        · rw [if_pos hb92] at h
          cases rest with
          | nil => simp at h
          | cons b2 rest2 =>
            simp only [Bool.and_eq_true, decide_eq_true_eq] at h
            obtain ⟨⟨hb2a, hb2b⟩, hrest⟩ := h
            have hu : Matches (quoteUnit q rs) [b, b2] := by
              rw [quoteUnit]
              refine .altR (.altL ?_)
              have h1 : Matches (RE.cls [(92, 92)]) [b] :=
                .cls (by simp [inRanges]; omega)
              have h2 : Matches (RE.cls [(0, 9), (11, 255)]) [b2] :=
                .cls (by simp [inRanges]; omega)
              simpa using Matches.seqm h1 h2
            have hih := ih rest2 (by simp at hlen; omega) hrest
            simpa using Matches.starCons hu hih
        · rw [if_neg hb92] at h
          simp only [Bool.and_eq_true, decide_eq_true_eq] at h
          obtain ⟨⟨hbne, hb256⟩, hrest⟩ := h
          have hu : Matches (quoteUnit q rs) [b] :=
            .altL (.cls (hq b hbq hb92 hb256))
          have hih := ih rest (by simp at hlen; omega) hrest
          simpa using Matches.starCons hu hih

theorem bt_matches {mid : List Nat} (h : ∀ b ∈ mid, b ≠ 96 ∧ b < 256) :
    Matches btRE (96 :: (mid ++ [96])) := by
  have h96 : Matches (RE.cls [(96, 96)]) [96] := .cls (by decide)
  have hb : Matches (.star (.cls [(0, 95), (97, 255)])) mid :=
    matches_starCls.mpr (by
      rw [List.all_eq_true]
      intro b hbm
      obtain ⟨h1, h2⟩ := h b hbm
      simp [inRanges]
      omega)
  simpa [btRE] using Matches.seqm h96 (Matches.seqm hb h96)

theorem dq_matches {mid : List Nat} (h : quotedBody 34 mid = true) :
    Matches dqRE (34 :: (mid ++ [34])) := by
  have h34 : Matches (RE.cls [(34, 34)]) [34] := .cls (by decide)
  have hb : Matches (.star dqUnit) mid := by
    have := quotedBody_matches 34 [(0, 33), (35, 91), (93, 255)]
      (by intro b h1 h2 h3; simp [inRanges]; omega)
      mid.length mid (le_refl _) h
    exact this
  simpa [dqRE] using Matches.seqm h34 (Matches.seqm hb h34)

theorem sq_matches {mid : List Nat} (h : quotedBody 39 mid = true) :
    Matches sqRE (39 :: (mid ++ [39])) := by
  have h39 : Matches (RE.cls [(39, 39)]) [39] := .cls (by decide)
  have hb : Matches (.star sqUnit) mid := by
    have := quotedBody_matches 39 [(0, 38), (40, 91), (93, 255)]
      (by intro b h1 h2 h3; simp [inRanges]; omega)
      mid.length mid (le_refl _) h
    exact this
  simpa [sqRE] using Matches.seqm h39 (Matches.seqm hb h39)

/-- Every non-`QuotedString` pattern is dead after a quote first byte. -/
theorem entries_quote_kill : ∀ e ∈ entries,
    e.kind = TokenKind.QuotedString ∨ startKill e.re [34, 39, 96] = true := by
  decide

/-- A quoted-string pattern that covers the whole input wins outright: every
other pattern is dead at the opening quote, and the other two quoted
patterns share the `QuotedString` kind. -/
theorem bestMatch_quoted {b0 : Nat} {t0 : List Nat} {r : RE}
    (hb : b0 = 34 ∨ b0 = 39 ∨ b0 = 96)
    (hwin : (⟨r, .QuotedString, 4⟩ : Entry) ∈ entries)
    (hfull : r.maxM (b0 :: t0) = some (b0 :: t0).length) :
    bestMatch (b0 :: t0) = some (.QuotedString, (b0 :: t0).length) := by
  apply bestMatch_spec (p := 4)
  · exact ⟨⟨r, .QuotedString, 4⟩, hwin, rfl, rfl, hfull⟩
  · intro e he m hm
    have hbound := (maxM_bounds hm).2
    rcases entries_quote_kill e he with hk | hkill
    · by_cases hmn : m < (b0 :: t0).length
      · exact Or.inl hmn
      · exact Or.inr ⟨by omega, Or.inr hk⟩
    · exfalso
      have hbm : b0 ∈ [34, 39, 96] := by
        rcases hb with rfl | rfl | rfl <;> simp
      rw [startKill_maxM hkill hbm] at hm
      cases hm

/-- Claim C6: a backtick-delimited string with no inner backtick, a
double-quoted string whose body is a sequence of plain characters,
backslash-escape pairs or doubled quotes, and the analogous single-quoted
string, each lex as a single `QuotedString` token whose span includes both
delimiters (0..len).  The escaped byte may be anything except LF, the
regex dot; inputs are byte strings, so bytes are below 256. -/
theorem c6_quoted_strings :
    (∀ s mid : List Nat, s = 96 :: (mid ++ [96]) →
      (∀ b ∈ mid, b ≠ 96 ∧ b < 256) →
      tokenize s = [.ok ⟨.QuotedString, ⟨0, s.length⟩⟩,
                    .ok ⟨.EOI, ⟨s.length, s.length⟩⟩]) ∧
    (∀ s mid : List Nat, s = 34 :: (mid ++ [34]) →
      quotedBody 34 mid = true →
      tokenize s = [.ok ⟨.QuotedString, ⟨0, s.length⟩⟩,
                    .ok ⟨.EOI, ⟨s.length, s.length⟩⟩]) ∧
    (∀ s mid : List Nat, s = 39 :: (mid ++ [39]) →
      quotedBody 39 mid = true →
      tokenize s = [.ok ⟨.QuotedString, ⟨0, s.length⟩⟩,
                    .ok ⟨.EOI, ⟨s.length, s.length⟩⟩]) := by
  refine ⟨?_, ?_, ?_⟩
  · rintro s mid rfl h
    exact tokenize_full (by decide)
      (bestMatch_quoted (Or.inr (Or.inr rfl)) (by decide)
        (maxM_full (by simp) (bt_matches h)))
  · rintro s mid rfl h
    exact tokenize_full (by decide)
      (bestMatch_quoted (Or.inl rfl) (by decide)
        (maxM_full (by simp) (dq_matches h)))
  · rintro s mid rfl h
    exact tokenize_full (by decide)
      (bestMatch_quoted (Or.inr (Or.inl rfl)) (by decide)
        (maxM_full (by simp) (sq_matches h)))

theorem c6_witness :
    ((∀ b ∈ [97], b ≠ 96 ∧ b < 256) ∧
      tokenize [96, 97, 96] =
        [.ok ⟨.QuotedString, ⟨0, 3⟩⟩, .ok ⟨.EOI, ⟨3, 3⟩⟩]) ∧
    (quotedBody 34 [97, 34, 34, 92, 110] = true ∧
      tokenize [34, 97, 34, 34, 92, 110, 34] =
        [.ok ⟨.QuotedString, ⟨0, 7⟩⟩, .ok ⟨.EOI, ⟨7, 7⟩⟩]) ∧
    (quotedBody 39 [98] = true ∧
      tokenize [39, 98, 39] =
        [.ok ⟨.QuotedString, ⟨0, 3⟩⟩, .ok ⟨.EOI, ⟨3, 3⟩⟩]) :=
  ⟨⟨by decide, c6_quoted_strings.1 [96, 97, 96] [97] rfl (by decide)⟩,
   ⟨by decide, c6_quoted_strings.2.1 [34, 97, 34, 34, 92, 110, 34]
      [97, 34, 34, 92, 110] rfl (by decide)⟩,
   ⟨by decide, c6_quoted_strings.2.2 [39, 98, 39] [98] rfl (by decide)⟩⟩

/-- Claim C5: an optional `-` followed by digits lexes as a single
`LiteralInteger` token; a decimal with `.` (digits on at least one side,
optional exponent) or a digit string with a mandatory exponent lexes as a
single `LiteralFloat` token; and neither regex on `LiteralFloat` admits a
leading `-`. -/
theorem c5_numeric_literals :
    (∀ s : List Nat, intShaped s = true →
      tokenize s = [.ok ⟨.LiteralInteger, ⟨0, s.length⟩⟩,
                    .ok ⟨.EOI, ⟨s.length, s.length⟩⟩]) ∧
    (∀ s : List Nat, floatShaped s →
      tokenize s = [.ok ⟨.LiteralFloat, ⟨0, s.length⟩⟩,
                    .ok ⟨.EOI, ⟨s.length, s.length⟩⟩]) ∧
    (∀ t : List Nat,
      ¬ Matches floatARE (45 :: t) ∧ ¬ Matches floatBRE (45 :: t)) :=
  ⟨fun s h => tokenize_full (by decide) (bestMatch_int h),
   fun s h => tokenize_full (by decide) (bestMatch_float h),
   fun t =>
    ⟨fun hm => dead_no_matches t (by decide) (deriv_of_matches hm 45 t rfl),
     fun hm => dead_no_matches t (by decide) (deriv_of_matches hm 45 t rfl)⟩⟩

theorem c5_witness :
    (intShaped [45, 55] = true ∧
      tokenize [45, 55] = [.ok ⟨.LiteralInteger, ⟨0, 2⟩⟩,
                           .ok ⟨.EOI, ⟨2, 2⟩⟩]) ∧
    (tokenize [49, 46, 53, 101, 51] =
      [.ok ⟨.LiteralFloat, ⟨0, 5⟩⟩, .ok ⟨.EOI, ⟨5, 5⟩⟩]) ∧
    (¬ Matches floatARE (45 :: [48]) ∧ ¬ Matches floatBRE (45 :: [48])) :=
  ⟨⟨by decide, c5_numeric_literals.1 [45, 55] (by decide)⟩,
   c5_numeric_literals.2.1 [49, 46, 53, 101, 51]
     (Or.inl ⟨[49], [53], [101, 51], rfl, by decide, by decide,
       Or.inl (by decide),
       Or.inr ⟨101, [], [51], rfl, Or.inr rfl, Or.inl rfl, by decide,
         by decide⟩⟩),
   c5_numeric_literals.2.2 [48]⟩

/-- Claim C8: a string matching `[A-Za-z_][A-Za-z0-9_$]*` that is not, up to
ASCII case, one of the twelve keywords lexes as a single `Ident` token
covering the entire string; in particular `$` (byte 36) may appear in an
identifier anywhere except as its first character, since `isIdentCont`
admits it and `isIdentStart` does not. -/
theorem c8_identifiers (s : List Nat) (hid : identShaped s = true)
    (hnk : ∀ p ∈ keywordTable, caseVariantB s p.1 = false) :
    tokenize s =
      [.ok ⟨.Ident, ⟨0, s.length⟩⟩, .ok ⟨.EOI, ⟨s.length, s.length⟩⟩] := by
  apply tokenize_full (by decide)
  apply bestMatch_spec (p := 1)
  · exact ⟨⟨identRE, .Ident, 1⟩, by decide, rfl, rfl, identRE_maxM hid⟩
  · intro e he m hm
    have hbound := (maxM_bounds hm).2
    rcases entries_ident_split e he with rfl | ⟨q, hq, rfl⟩ | hkill
    · by_cases hmn : m < s.length
      · exact Or.inl hmn
      · exact Or.inr ⟨by omega, Or.inr rfl⟩
    · obtain ⟨hmw, hcv⟩ := litCIRE_maxM_eq hm
      by_cases hmn : m < s.length
      · exact Or.inl hmn
      · exfalso
        have hms : m = s.length := by omega
        rw [hms, List.take_length] at hcv
        rw [hnk q hq] at hcv
        cases hcv
    · exfalso
      cases s with
      | nil => simp [identShaped] at hid
      | cons b t =>
        simp [identShaped] at hid
        rw [startKill_maxM hkill (identStartBytes_mem hid.1)] at hm
        cases hm

theorem c8_witness :
    (identShaped [95, 97, 36, 49] = true ∧
      ∀ p ∈ keywordTable, caseVariantB [95, 97, 36, 49] p.1 = false) ∧
    tokenize [95, 97, 36, 49] =
      [.ok ⟨.Ident, ⟨0, 4⟩⟩, .ok ⟨.EOI, ⟨4, 4⟩⟩] :=
  ⟨⟨by decide, by decide⟩,
    c8_identifiers [95, 97, 36, 49] (by decide) (by decide)⟩

/-- Claim C3: each of the twelve keywords, written in any mixture of ASCII
upper and lower case, lexes as one token of the corresponding keyword kind
and not as an `Ident` token, even though the string also fully matches the
identifier pattern (the second conjunct). -/
theorem c3_keywords_case_insensitive (s w : List Nat) (k : TokenKind)
    (hmem : (w, k) ∈ keywordTable) (hcv : caseVariantB s w = true) :
    (tokenize s =
      [.ok ⟨k, ⟨0, s.length⟩⟩, .ok ⟨.EOI, ⟨s.length, s.length⟩⟩]) ∧
    identRE.maxM s = some s.length := by
  obtain ⟨hwne, hwup⟩ := keywordTable_upper (w, k) hmem
  have hshape : identShaped s = true := caseVariant_shape hcv hwup hwne
  have hident := identRE_maxM hshape
  refine ⟨?_, hident⟩
  have hkws : k ≠ .Whitespace := by
    have hk : ∀ p ∈ keywordTable, p.2 ≠ TokenKind.Whitespace := by decide
    exact hk (w, k) hmem
  apply tokenize_full hkws
  have hw1 : 1 ≤ w.length := by
    cases w with
    | nil => exact absurd rfl hwne
    | cons c cs => simp
  have hlen : s.length = w.length := caseVariantB_length hcv
  have hwm : (litCIRE w).maxM s = some s.length := by
    have hm : Matches (litCIRE w) (s.take s.length) := by
      rw [List.take_length]
      exact matches_litCIRE.mpr hcv
    obtain ⟨m, hm1, hm2⟩ :=
      maxM_complete s _ s.length (by omega) (le_refl _) hm
    have := (maxM_bounds hm1).2
    have hms : m = s.length := by omega
    rw [hm1, hms]
  apply bestMatch_spec (p := 2 * w.length)
  · refine ⟨⟨litCIRE w, k, 2 * w.length⟩, ?_, rfl, rfl, hwm⟩
    rw [entries]
    apply List.mem_append_right
    exact List.mem_map.mpr ⟨(w, k), hmem, rfl⟩
  · intro e he m hm
    have hbound := (maxM_bounds hm).2
    rcases entries_ident_split e he with rfl | ⟨q, hq, rfl⟩ | hkill
    · by_cases hmn : m < s.length
      · exact Or.inl hmn
      · refine Or.inr ⟨by omega, Or.inl ?_⟩
        show 1 < 2 * w.length
        omega
    · obtain ⟨hmw, hcv'⟩ := litCIRE_maxM_eq hm
      by_cases hmn : m < s.length
      · exact Or.inl hmn
      · have hms : m = s.length := by omega
        rw [hms, List.take_length] at hcv'
        obtain ⟨hqne, hqup⟩ := keywordTable_upper q hq
        have h1 := caseVariant_lower hcv hwup
        have h2 := caseVariant_lower hcv' hqup
        have heqq : (w, k) = q :=
          keywordTable_lower_inj (w, k) hmem q hq (by rw [← h1, h2])
        refine Or.inr ⟨by omega, Or.inr ?_⟩
        show q.2 = k
        rw [← heqq]
    · exfalso
      cases s with
      | nil => simp [identShaped] at hshape
      | cons b t =>
        have hstart : isIdentStart b = true := caseVariant_head hcv hwup
        rw [startKill_maxM hkill (identStartBytes_mem hstart)] at hm
        cases hm

theorem c3_witness :
    (([83, 85, 66, 83, 69, 84, 79, 70], TokenKind.SUBSETOF) ∈ keywordTable ∧
      caseVariantB [115, 117, 98, 83, 101, 116, 79, 102]
        [83, 85, 66, 83, 69, 84, 79, 70] = true) ∧
    ((tokenize [115, 117, 98, 83, 101, 116, 79, 102] =
      [.ok ⟨.SUBSETOF, ⟨0, 8⟩⟩, .ok ⟨.EOI, ⟨8, 8⟩⟩]) ∧
      identRE.maxM [115, 117, 98, 83, 101, 116, 79, 102] = some 8) :=
  ⟨⟨by decide, by decide⟩,
    c3_keywords_case_insensitive [115, 117, 98, 83, 101, 116, 79, 102]
      [83, 85, 66, 83, 69, 84, 79, 70] .SUBSETOF (by decide) (by decide)⟩

/-- Claim C7: every maximal run of space, tab, CR, LF and form feed is
skipped: no input ever produces a `Whitespace` token in the stream, and an
input consisting only of such characters tokenizes to exactly the single
EOI token. -/
theorem c7_whitespace_skipped :
    (∀ (src : List Nat) (t : Token),
      LexItem.ok t ∈ tokenize src → t.kind ≠ .Whitespace) ∧
    (∀ src : List Nat, (∀ b ∈ src, isWsB b = true) →
      tokenize src = [.ok ⟨.EOI, ⟨src.length, src.length⟩⟩]) := by
  constructor
  · intro src t h
    exact tokensAux_no_ws src _ _ t h
  · intro src hws
    have h1 := nextTok_all_ws hws
    have hfuel : src.length + 2 = src.length + 1 + 1 := rfl
    rw [tokenize, hfuel, tokensAux_succ_ok h1,
      tokensAux_after_eoi src (by omega)]
    rfl

theorem c7_witness :
    ((LexItem.ok ⟨.Ident, ⟨1, 2⟩⟩ ∈ tokenize [32, 97]) ∧
      (⟨.Ident, ⟨1, 2⟩⟩ : Token).kind ≠ .Whitespace) ∧
    ((∀ b ∈ [32, 9, 13], isWsB b = true) ∧
      tokenize [32, 9, 13] = [.ok ⟨.EOI, ⟨3, 3⟩⟩]) :=
  ⟨⟨by decide, c7_whitespace_skipped.1 [32, 97] ⟨.Ident, ⟨1, 2⟩⟩ (by decide)⟩,
    ⟨by decide, c7_whitespace_skipped.2 [32, 9, 13] (by decide)⟩⟩

/-- Claim C10: `all_reserved_keywords` returns one string for every variant
of the `TokenKind` enum, in declaration order, each string being the Debug
name of the variant — so the result also contains non-keyword entries such
as "Error", "EOI", "Whitespace", "Ident", "QuotedString" and every
punctuation kind. -/
theorem c10_all_reserved_keywords :
    all_reserved_keywords =
      ["Error", "EOI", "Whitespace", "Ident", "QuotedString",
       "LiteralInteger", "LiteralFloat", "Dollar", "DoubleEq", "Eq",
       "NotEq", "Lt", "Gt", "Lte", "Gte", "Spaceship", "Plus", "Minus",
       "Multiply", "Divide", "Modulo", "StringConcat", "LParen", "RParen",
       "Comma", "Period", "DoublePeriod", "Colon", "DoubleColon",
       "SemiColon", "Backslash", "LBracket", "RBracket", "Caret", "LBrace",
       "RBrace", "AtSign", "Placeholder", "AND", "OR", "TRUE", "FALSE",
       "NULL", "NOT", "IN", "NIN", "SUBSETOF", "CONTAINS", "SIZE",
       "EMPTY"] ∧
    all_reserved_keywords.length = TokenKind.all.length := ⟨rfl, rfl⟩

end JsonbToken
